/-
Verification of the candidate-extraction core of the document-processor
backend (src/backend/app): the text normalizer, the evidence verifier,
the excerpt builder, the generator-client retry protocol and the
extraction orchestrator are embedded shallowly and the behavioural
properties of the specification are settled against them.

Conventions of the embedding:
* Python strings are Lean `String` (lists of characters); the regex
  character classes used by the code (`\s`, `\w`, `\d`) are modelled by
  ASCII predicates, matching the code's ASCII-oriented rules.
* Python `int` is `Int` where sign matters (page numbers) and `Nat` for
  character budgets; Python `float` scores are `ℚ` (the constants 0.45
  and 0.75 are exactly representable there and the comparisons proved
  are robust to rounding).
* The external generator transport and the heuristic regex scanners are
  parameters of the orchestrator (functions passed in), exactly as the
  code receives `llm_client` and calls `heuristic_candidates_for_field`;
  theorems about the orchestrator hold for every instantiation.
-/
import Mathlib

namespace DocProc

/-! ## Character classes (ASCII model of Python `str.lower`, `\s`, `\w`) -/

/-- Python `\s` (ASCII part): space, tab, newline, carriage return,
vertical tab, form feed. -/
def isPySpace (c : Char) : Bool :=
  c = ' ' || c = '\t' || c = '\n' || c = '\r' || c = '\x0b' || c = '\x0c'

/-- Python `\w` (ASCII part): letters, digits and underscore. -/
def isWordChar (c : Char) : Bool :=
  c.isAlpha || c.isDigit || c = '_'

/-- The capital/lower-case ASCII letter pairs. -/
def upperLowerPairs : List (Char × Char) :=
  [('A','a'), ('B','b'), ('C','c'), ('D','d'), ('E','e'), ('F','f'),
   ('G','g'), ('H','h'), ('I','i'), ('J','j'), ('K','k'), ('L','l'),
   ('M','m'), ('N','n'), ('O','o'), ('P','p'), ('Q','q'), ('R','r'),
   ('S','s'), ('T','t'), ('U','u'), ('V','v'), ('W','w'), ('X','x'),
   ('Y','y'), ('Z','z')]

/-- Python `str.lower` on ASCII: map each capital letter to its
lower-case counterpart, leave everything else unchanged. -/
def lowerChar (c : Char) : Char :=
  ((upperLowerPairs.find? (fun p => p.1 = c)).map Prod.snd).getD c

/-- Lower-casing a list of characters (`str.lower`). -/
def lowerList (l : List Char) : List Char := l.map lowerChar

/-! ## `normalize_text` (heuristics.py lines 26-46)

The code performs, in order: lower-case, `re.sub(r"\s+", " ")`,
`re.sub(r"[^\w\s\-]", "")`, `str.strip()`. -/

/-- `re.sub(r"\s+", " ", text)`: replace every maximal run of whitespace
by a single space.  The boolean flag records whether the previous
character belonged to a whitespace run. -/
def collapseWsAux : Bool → List Char → List Char
  | _, [] => []
  | true, c :: cs =>
    if isPySpace c then collapseWsAux true cs
    else c :: collapseWsAux false cs
  | false, c :: cs =>
    if isPySpace c then ' ' :: collapseWsAux true cs
    else c :: collapseWsAux false cs

/-- Entry point of whitespace collapsing. -/
def collapseWs (l : List Char) : List Char := collapseWsAux false l

/-- A character surviving `re.sub(r"[^\w\s\-]", "")`. -/
def keepChar (c : Char) : Bool := isWordChar c || isPySpace c || c = '-'

/-- `re.sub(r"[^\w\s\-]", "", text)`: drop punctuation except hyphens. -/
def rmPunct (l : List Char) : List Char := l.filter keepChar

/-- `str.strip()`: drop leading and trailing whitespace. -/
def stripWs (l : List Char) : List Char :=
  ((l.dropWhile isPySpace).reverse.dropWhile isPySpace).reverse

/-- `normalize_text` on character lists: lower-case, collapse whitespace
runs, strip punctuation except hyphens, trim. -/
def normList (l : List Char) : List Char :=
  stripWs (rmPunct (collapseWs (lowerList l)))

/-- `normalize_text` (heuristics.py): the normalizer used for candidate
values and for evidence comparison. -/
def normalize_text (s : String) : String := String.mk (normList s.data)

/-! ## Auxiliary predicates used by the normalizer analysis -/

/-- No two adjacent whitespace characters occur in the list. -/
def NoTwoSp (l : List Char) : Prop :=
  List.Chain' (fun a b => ¬(isPySpace a = true ∧ isPySpace b = true)) l

/-- The list does not begin with a whitespace character. -/
def HeadOkay (l : List Char) : Prop :=
  ∀ c, l.head? = some c → isPySpace c = false

/-! ## Substring matching (Python `in` on strings) -/

/-- Boolean list-prefix test. -/
def isPrefixB : List Char → List Char → Bool
  | [], _ => true
  | _ :: _, [] => false
  | a :: as, b :: bs => a = b && isPrefixB as bs

/-- Boolean contiguous-sublist test: Python `needle in hay`. -/
def isInfixB (needle : List Char) : List Char → Bool
  | [] => needle.isEmpty
  | c :: hay => isPrefixB needle (c :: hay) || isInfixB needle hay

/-! ## Digit helpers (heuristics.py `extract_digits`) -/

/-- `extract_digits` (heuristics.py line 132): keep only digits. -/
def extract_digits (s : String) : List Char := s.data.filter Char.isDigit

/-- Numeric value of a decimal digit string (Python `int(s)`). -/
def digitsToNat (l : List Char) : Nat :=
  l.foldl (fun acc c => acc * 10 + (c.toNat - '0'.toNat)) 0

/-- Decimal rendering of a natural (Python `str(int(...))`). -/
def natLit (n : Nat) : List Char := (toString n).data

/-! ## Data model (models.py) -/

/-- `FieldType` literal (models.py line 25). -/
inductive FieldType
  | string
  | date
  | phone
  | string_or_list
deriving DecidableEq, Repr

/-- `FieldSpec` (models.py lines 53-65). -/
structure FieldSpec where
  key : String
  label : Option String
  type : FieldType
deriving DecidableEq, Repr

/-- `Evidence` (models.py lines 132-159); `bbox` is unused by the core
and omitted. -/
structure Evidence where
  doc_id : String
  page : Int
  quoted_text : String
deriving DecidableEq, Repr

/-- `ExtractionMethod` literal (models.py line 34). -/
inductive ExtractionMethod
  | heuristic
  | llm
deriving DecidableEq, Repr

/-- `CandidateScores` (models.py lines 169-201); scores are rationals in
the embedding. -/
structure CandidateScores where
  anchor_match : ℚ
  validator : ℚ
  doc_relevance : ℚ
  cross_doc_agreement : ℚ
  contradiction_penalty : ℚ
deriving DecidableEq, Repr

/-- `Candidate` (models.py lines 204-233). -/
structure Candidate where
  field : String
  raw_value : String
  normalized_value : String
  evidence : List Evidence
  from_method : ExtractionMethod
  validators : List String
  rejected_reasons : List String
  scores : CandidateScores
deriving DecidableEq, Repr

/-- `Candidate.is_accepted` (models.py lines 230-233): accepted iff
`rejected_reasons` is empty. -/
def Candidate.is_accepted (c : Candidate) : Bool := c.rejected_reasons.isEmpty

/-- `SUPPORTED_FIELD_KEYS` (models.py lines 14-22). -/
def SUPPORTED_FIELD_KEYS : List String :=
  ["full_name", "dob", "phone", "address", "insurance_member_id",
   "allergies", "medications"]

/-- Construction of `Evidence` through its pydantic field validators
(models.py lines 140-159): empty/whitespace-only `doc_id` or
`quoted_text` and pages below 1 are rejected. -/
def mkEvidence (doc_id : String) (page : Int) (quoted_text : String) : Option Evidence :=
  if doc_id = "" || (stripWs doc_id.data).isEmpty then none
  else if page < 1 then none
  else if quoted_text = "" || (stripWs quoted_text.data).isEmpty then none
  else some ⟨doc_id, page, quoted_text⟩

/-- `_validate_score_range` (models.py lines 162-166). -/
def scoreInRange (v : ℚ) : Bool := decide (0 ≤ v) && decide (v ≤ 1)

/-- Construction of `CandidateScores` through its validators. -/
def mkCandidateScores (anchor_match validator doc_relevance cross_doc_agreement
    contradiction_penalty : ℚ) : Option CandidateScores :=
  if scoreInRange anchor_match && scoreInRange validator &&
      scoreInRange doc_relevance && scoreInRange cross_doc_agreement &&
      scoreInRange contradiction_penalty then
    some ⟨anchor_match, validator, doc_relevance, cross_doc_agreement,
      contradiction_penalty⟩
  else none

/-- Construction of `Candidate` through its validators (models.py lines
216-228): field key must be supported, evidence must be non-empty. -/
def mkCandidate (field raw_value normalized_value : String)
    (evidence : List Evidence) (from_method : ExtractionMethod)
    (validators rejected_reasons : List String) (scores : CandidateScores) :
    Option Candidate :=
  if SUPPORTED_FIELD_KEYS.contains field then
    if evidence.isEmpty then none
    else some ⟨field, raw_value, normalized_value, evidence, from_method,
      validators, rejected_reasons, scores⟩
  else none

/-- Layout page (models.py lines 95-107). -/
structure LayoutPageText where
  page : Int
  full_text : String
deriving DecidableEq, Repr

/-- Layout document (models.py lines 110-114). -/
structure LayoutDoc where
  doc_id : String
  pages : List LayoutPageText
deriving DecidableEq, Repr

/-- Routing entry (models.py lines 117-129); scores are irrelevant to
the orchestrator and omitted. -/
structure RoutingEntry where
  field : String
  doc_ids : List String
deriving DecidableEq, Repr

/-- `DocExcerpt` (excerpts.py lines 15-20). -/
structure DocExcerpt where
  doc_id : String
  page : Int
  text : String
deriving DecidableEq, Repr

/-! ## Evidence verifier (extract_candidates.py lines 50-237) -/

/-- `_evidence_supports_string` (lines 65-74): normalized value must be
a substring of some normalized evidence text. -/
def _evidence_supports_string (normalized_value : String)
    (evidence_texts : List String) : Bool :=
  let norm_value := normalize_text normalized_value
  evidence_texts.any fun ev_text =>
    isInfixB norm_value.data (normalize_text ev_text).data

/-- The separator character class of the date regexes: hyphen or slash. -/
def seps : List Char := ['-', '/']

/-- The date-pattern search of the code for literal digit strings
`a`, `b`, `c`: some choice of separators makes the concatenation a
substring of the evidence. -/
def sepJoinHit (a b c : List Char) (ev : List Char) : Bool :=
  seps.any fun s1 => seps.any fun s2 => isInfixB (a ++ s1 :: (b ++ s2 :: c)) ev

/-- The month-name table of `_evidence_supports_date` (lines 110-124). -/
def monthNamesFor (m : List Char) : List String :=
  if m = ['0','1'] then ["jan", "january"]
  else if m = ['0','2'] then ["feb", "february"]
  else if m = ['0','3'] then ["mar", "march"]
  else if m = ['0','4'] then ["apr", "april"]
  else if m = ['0','5'] then ["may"]
  else if m = ['0','6'] then ["jun", "june"]
  else if m = ['0','7'] then ["jul", "july"]
  else if m = ['0','8'] then ["aug", "august"]
  else if m = ['0','9'] then ["sep", "september"]
  else if m = ['1','0'] then ["oct", "october"]
  else if m = ['1','1'] then ["nov", "november"]
  else if m = ['1','2'] then ["dec", "december"]
  else []

/-- `re.match(r"(\d{4})-(\d{2})-(\d{2})", normalized_value)`: prefix
match, returning the year, month and day digit groups. -/
def parseYmd : List Char → Option (List Char × List Char × List Char)
  | y1 :: y2 :: y3 :: y4 :: s1 :: m1 :: m2 :: s2 :: d1 :: d2 :: _rest =>
    if y1.isDigit && y2.isDigit && y3.isDigit && y4.isDigit && s1 = '-' &&
        m1.isDigit && m2.isDigit && s2 = '-' && d1.isDigit && d2.isDigit then
      some ([y1, y2, y3, y4], [m1, m2], [d1, d2])
    else none
  | _ => none

/-- The per-evidence-text body of `_evidence_supports_date` (lines
91-128): the four `re.search` patterns (padded and unpadded, year-first
and month-first) followed by the month-name heuristic. -/
def supportsDateOne (y m d : List Char) (ev : List Char) : Bool :=
  sepJoinHit y m d ev ||
  sepJoinHit y (natLit (digitsToNat m)) (natLit (digitsToNat d)) ev ||
  sepJoinHit m d y ev ||
  sepJoinHit (natLit (digitsToNat m)) (natLit (digitsToNat d)) y ev ||
  (isInfixB y ev && isInfixB (d.dropWhile (fun c => c = '0')) ev &&
    (monthNamesFor m).any fun nm => isInfixB nm.data (lowerList ev))

/-- `_evidence_supports_date` (lines 77-130). -/
def _evidence_supports_date (normalized_value : String)
    (evidence_texts : List String) : Bool :=
  match parseYmd normalized_value.data with
  | none => false
  | some (y, m, d) => evidence_texts.any fun ev_text => supportsDateOne y m d ev_text.data

/-- `_evidence_supports_phone` (lines 133-163). -/
def _evidence_supports_phone (normalized_value : String)
    (evidence_texts : List String) : Bool :=
  let norm_digits := extract_digits normalized_value
  if norm_digits.length < 10 then false
  else
    evidence_texts.any fun ev_text =>
      let ev_digits := extract_digits ev_text
      isInfixB norm_digits ev_digits ||
      (decide (norm_digits.head? = some '1') && isInfixB norm_digits.tail ev_digits) ||
      (decide (norm_digits.length = 11) && decide (norm_digits.head? = some '1') &&
        isInfixB (norm_digits.drop 1) ev_digits)

/-- `re.split(r"[,;]", s)`: split at every comma or semicolon. -/
def splitSeps : List Char → List (List Char)
  | [] => [[]]
  | c :: cs =>
    if c = ',' || c = ';' then [] :: splitSeps cs
    else
      match splitSeps cs with
      | [] => [[c]]
      | g :: gs => (c :: g) :: gs

/-- `_evidence_supports_list` (lines 166-194). -/
def _evidence_supports_list (normalized_value : String)
    (evidence_texts : List String) : Bool :=
  if normalized_value.data.any (fun c => c = ',' || c = ';') then
    let items := ((splitSeps normalized_value.data).map stripWs).filter
      (fun i => !i.isEmpty)
    if items.isEmpty then false
    else
      let norm_evidence := normalize_text (String.intercalate " " evidence_texts)
      items.all fun item =>
        let norm_item := normalize_text (String.mk item)
        norm_item.data.isEmpty || isInfixB norm_item.data norm_evidence.data
  else _evidence_supports_string normalized_value evidence_texts

/-- `evidence_supports_value` (lines 197-237): the deterministic
hallucination check, dispatching on the field type. -/
def evidence_supports_value (field : FieldSpec) (candidate : Candidate) : Bool :=
  if candidate.evidence.isEmpty then false
  else if candidate.evidence.any (fun ev =>
      ev.doc_id = "" || ev.page = 0 || ev.quoted_text = "") then false
  else
    let evidence_texts := candidate.evidence.map Evidence.quoted_text
    if evidence_texts.isEmpty then false
    else
      match field.type with
      | FieldType.date => _evidence_supports_date candidate.normalized_value evidence_texts
      | FieldType.phone => _evidence_supports_phone candidate.normalized_value evidence_texts
      | FieldType.string_or_list => _evidence_supports_list candidate.normalized_value evidence_texts
      | FieldType.string => _evidence_supports_string candidate.normalized_value evidence_texts

/-! ## Excerpt builder (excerpts.py) -/

/-- `FIELD_ALIASES` (routing.py lines 33-41). -/
def FIELD_ALIASES (key : String) : List String :=
  if key = "full_name" then ["full_name", "name", "patient_name"]
  else if key = "dob" then ["dob", "date_of_birth", "birthdate"]
  else if key = "phone" then ["phone", "mobile", "telephone"]
  else if key = "address" then ["address", "street"]
  else if key = "insurance_member_id" then
    ["insurance_member_id", "member_id", "policy", "insurance_id"]
  else if key = "allergies" then ["allergies", "allergy"]
  else if key = "medications" then ["medications", "meds"]
  else []

/-- `str.lower` on strings. -/
def lowerStr (s : String) : String := String.mk (lowerList s.data)

/-- `_get_field_keywords` (excerpts.py lines 23-39): key, label (when
present) and aliases, all lower-cased. -/
def _get_field_keywords (field : FieldSpec) : List String :=
  lowerStr field.key ::
    ((match field.label with
      | some l => [lowerStr l]
      | none => []) ++ (FIELD_ALIASES field.key).map lowerStr)

/-- `_page_contains_keyword` (excerpts.py lines 42-45). -/
def _page_contains_keyword (page_text : String) (keywords : List String) : Bool :=
  keywords.any fun kw => isInfixB kw.data (lowerList page_text.data)

/-- Page comparison used by `sorted(doc.pages, key=lambda p: p.page)`. -/
abbrev pageLEP (p q : LayoutPageText) : Prop := p.page ≤ q.page

instance : IsTotal LayoutPageText pageLEP :=
  ⟨fun p q => Int.le_total p.page q.page⟩

instance : IsTrans LayoutPageText pageLEP :=
  ⟨fun _ _ _ h1 h2 => le_trans h1 h2⟩

/-- Pages of a document, sorted ascending by page number (Python
`sorted` is a stable sort by a total preorder, whose output the stable
insertion sort reproduces exactly). -/
def sortedPages (doc : LayoutDoc) : List LayoutPageText :=
  doc.pages.insertionSort pageLEP

/-- Page selection of `build_excerpts_for_field` (excerpts.py lines
86-100): keyword-matching pages, falling back to the first page, capped
at `max_pages_per_doc`. -/
def selectPages (keywords : List String) (doc : LayoutDoc)
    (max_pages_per_doc : Nat) : List LayoutPageText :=
  let sorted := sortedPages doc
  let matching := sorted.filter fun p => _page_contains_keyword p.full_text keywords
  let chosen := match matching, sorted with
    | [], p :: _ => [p]
    | m, _ => m
  chosen.take max_pages_per_doc

/-- The per-document page loop of `build_excerpts_for_field` (excerpts.py
lines 102-126), threading the per-document and total character budgets. -/
def buildDocLoop (docId : String) (maxCharsPerDoc maxTotalChars : Nat) :
    List LayoutPageText → Nat → Nat → List DocExcerpt × Nat
  | [], _, totalUsed => ([], totalUsed)
  | p :: rest, docUsed, totalUsed =>
    if maxTotalChars ≤ totalUsed then ([], totalUsed)
    else if maxCharsPerDoc ≤ docUsed then ([], totalUsed)
    else
      let maxFor := min (maxCharsPerDoc - docUsed) (maxTotalChars - totalUsed)
      let text := p.full_text.data.take maxFor
      if text.isEmpty then
        buildDocLoop docId maxCharsPerDoc maxTotalChars rest docUsed totalUsed
      else
        let r := buildDocLoop docId maxCharsPerDoc maxTotalChars rest
          (docUsed + text.length) (totalUsed + text.length)
        (⟨docId, p.page, String.mk text⟩ :: r.1, r.2)

/-- The document loop of `build_excerpts_for_field` (excerpts.py lines
82-128). -/
def buildLoop (keywords : List String) (maxTotal maxPerDoc maxPages : Nat) :
    List LayoutDoc → Nat → List DocExcerpt
  | [], _ => []
  | doc :: rest, totalUsed =>
    if maxTotal ≤ totalUsed then []
    else
      let selected := selectPages keywords doc maxPages
      let r := buildDocLoop doc.doc_id maxPerDoc maxTotal selected 0 totalUsed
      r.1 ++ buildLoop keywords maxTotal maxPerDoc maxPages rest r.2

/-- Same loop, keeping one chunk of output per input document (used to
state the per-document properties of the builder). -/
def buildChunks (keywords : List String) (maxTotal maxPerDoc maxPages : Nat) :
    List LayoutDoc → Nat → List (List DocExcerpt)
  | [], _ => []
  | doc :: rest, totalUsed =>
    if maxTotal ≤ totalUsed then
      [] :: buildChunks keywords maxTotal maxPerDoc maxPages rest totalUsed
    else
      let selected := selectPages keywords doc maxPages
      let r := buildDocLoop doc.doc_id maxPerDoc maxTotal selected 0 totalUsed
      r.1 :: buildChunks keywords maxTotal maxPerDoc maxPages rest r.2

/-- `build_excerpts_for_field` (excerpts.py lines 48-128). -/
def build_excerpts_for_field (field : FieldSpec) (routed_docs : List LayoutDoc)
    (max_total_chars max_chars_per_doc max_pages_per_doc : Nat) : List DocExcerpt :=
  buildLoop (_get_field_keywords field) max_total_chars max_chars_per_doc
    max_pages_per_doc routed_docs 0

/-! ## Generator client protocol (llm_client.py) -/

/-- `LLMInvalidJSONError` (llm_client.py lines 27-33). -/
structure LLMInvalidJSONError where
  field : String
  message : String
deriving DecidableEq, Repr

/-- `ApiLLMClient.extract_candidates` (llm_client.py lines 327-374).
The external transport together with `_parse_llm_response` is modelled
by the oracle `parseResults`: `parseResults i` is the outcome of parsing
the response of the i-th external call (`Except.error msg` models the
`ValueError` raised on a parse failure).  The second component counts
external calls. -/
def clientExtractCandidates (field : FieldSpec) (excerpts : List DocExcerpt)
    (parseResults : Nat → Except String (List Candidate)) :
    Except LLMInvalidJSONError (List Candidate) × Nat :=
  if excerpts.isEmpty then (Except.ok [], 0)
  else
    match parseResults 0 with
    | Except.ok cands => (Except.ok cands, 1)
    | Except.error _ =>
      match parseResults 1 with
      | Except.ok cands => (Except.ok cands, 2)
      | Except.error e2 => (Except.error ⟨field.key, e2⟩, 2)

/-! ## Extraction orchestrator (extract_candidates.py) -/

/-- `AUTOFILL_THRESHOLD` (extract_candidates.py line 42). -/
def AUTOFILL_THRESHOLD : ℚ := 0.75

/-- Excerpt capping defaults (extract_candidates.py lines 45-47). -/
def DEFAULT_MAX_TOTAL_CHARS : Nat := 8000

def DEFAULT_MAX_CHARS_PER_DOC : Nat := 4000

def DEFAULT_MAX_PAGES_PER_DOC : Nat := 3

/-- `_compute_provisional_confidence` (extract_candidates.py lines
240-247): `0.45 * anchor_match`. -/
def _compute_provisional_confidence (candidate : Candidate) : ℚ :=
  0.45 * candidate.scores.anchor_match

/-- The per-candidate evidence enforcement of the orchestrator (lines
400-406 and 457-460): failing candidates get the reason
`"unsupported_by_evidence"` appended and are kept. -/
def checkCandidate (field : FieldSpec) (c : Candidate) : Candidate :=
  if evidence_supports_value field c then c
  else { c with rejected_reasons := c.rejected_reasons ++ ["unsupported_by_evidence"] }

/-- Python `max` over a non-empty list, as a fold. -/
def listMax (x : ℚ) (l : List ℚ) : ℚ := l.foldl max x

/-- The escalation decision (lines 419-431): call the generator iff
there is no accepted heuristic candidate or the best provisional
confidence is below the threshold. -/
def shouldCallLLM (accepted : List Candidate) : Bool :=
  match accepted with
  | [] => true
  | c :: cs =>
    decide (listMax (_compute_provisional_confidence c)
      (cs.map _compute_provisional_confidence) < AUTOFILL_THRESHOLD)

/-- A trace event (trace fields relevant to the claims: step name,
status and optional error kind/message). -/
structure TraceEvent where
  step : String
  status : String
  errKind : Option String
  errMsg : Option String
deriving DecidableEq, Repr

def heurEvent (key : String) : TraceEvent :=
  ⟨"field:" ++ key ++ ":heuristic", "ok", none, none⟩

def llmOkEvent (key : String) : TraceEvent :=
  ⟨"field:" ++ key ++ ":llm", "ok", none, none⟩

def llmErrEvent (key : String) (e : LLMInvalidJSONError) : TraceEvent :=
  ⟨"field:" ++ key ++ ":llm", "error", some "LLMInvalidJSONError", some e.message⟩

/-- Result of processing one field in the orchestrator loop. -/
structure FieldOutcome where
  candidates : List Candidate
  llm_used : Bool
  llm_calls : Nat
  events : List TraceEvent
deriving Repr

/-- The body of the per-field loop of `extract_candidates_for_run`
(lines 393-495): heuristic pass, evidence enforcement, escalation
decision, optional generator pass with `LLMInvalidJSONError` recovery.
The heuristic extractor and the generator client are parameters, as in
the code (`heuristic_candidates_for_field` and `llm_client`). -/
def processField (heurFn : FieldSpec → List LayoutDoc → List Candidate)
    (llmFn : FieldSpec → List DocExcerpt → Except LLMInvalidJSONError (List Candidate))
    (field : FieldSpec) (routed_docs : List LayoutDoc) : FieldOutcome :=
  let heuristic_candidates := heurFn field routed_docs
  let checked := heuristic_candidates.map (checkCandidate field)
  let accepted_heuristic := heuristic_candidates.filter fun c =>
    evidence_supports_value field c
  let he := heurEvent field.key
  if shouldCallLLM accepted_heuristic then
    let excerpts := build_excerpts_for_field field routed_docs
      DEFAULT_MAX_TOTAL_CHARS DEFAULT_MAX_CHARS_PER_DOC DEFAULT_MAX_PAGES_PER_DOC
    if excerpts.isEmpty then
      ⟨checked, true, 0, [he, llmOkEvent field.key]⟩
    else
      match llmFn field excerpts with
      | Except.ok llm_candidates =>
        ⟨checked ++ llm_candidates.map (checkCandidate field), true, 1,
          [he, llmOkEvent field.key]⟩
      | Except.error e =>
        ⟨checked, true, 1, [he, llmErrEvent field.key e]⟩
  else ⟨checked, false, 0, [he]⟩

/-- `_get_routed_docs` (lines 274-299): the first routing entry for the
field, resolved against the layout map (last layout doc wins for a
duplicated doc_id, as in the Python dict comprehension). -/
def _get_routed_docs (field_key : String) (routing : List RoutingEntry)
    (layout : List LayoutDoc) : List LayoutDoc :=
  match routing.find? (fun r => r.field = field_key) with
  | none => []
  | some entry =>
    if entry.doc_ids.isEmpty then []
    else entry.doc_ids.filterMap fun id =>
      (layout.filter (fun d => d.doc_id = id)).getLast?

/-- `method_order` (line 314). -/
def methodOrder : ExtractionMethod → Nat
  | ExtractionMethod.heuristic => 0
  | ExtractionMethod.llm => 1

/-- The sort comparison of `_sort_candidates` (lines 305-323):
lexicographic on (field, method order, normalized_value). -/
abbrev candLEP (a b : Candidate) : Prop :=
  a.field < b.field ∨
    (a.field = b.field ∧
      (methodOrder a.from_method < methodOrder b.from_method ∨
        (methodOrder a.from_method = methodOrder b.from_method ∧
          a.normalized_value ≤ b.normalized_value)))

instance : IsTotal Candidate candLEP := ⟨by
  intro a b
  unfold candLEP
  rcases lt_trichotomy a.field b.field with h | h | h
  · exact Or.inl (Or.inl h)
  · rcases Nat.lt_trichotomy (methodOrder a.from_method) (methodOrder b.from_method)
      with hm | hm | hm
    · exact Or.inl (Or.inr ⟨h, Or.inl hm⟩)
    · rcases le_total a.normalized_value b.normalized_value with hn | hn
      · exact Or.inl (Or.inr ⟨h, Or.inr ⟨hm, hn⟩⟩)
      · exact Or.inr (Or.inr ⟨h.symm, Or.inr ⟨hm.symm, hn⟩⟩)
    · exact Or.inr (Or.inr ⟨h.symm, Or.inl hm⟩)
  · exact Or.inr (Or.inl h)⟩

instance : IsTrans Candidate candLEP := ⟨by
  intro a b c hab hbc
  unfold candLEP at hab hbc ⊢
  rcases hab with h1 | ⟨e1, h1⟩
  · rcases hbc with h2 | ⟨e2, _⟩
    · exact Or.inl (lt_trans h1 h2)
    · rw [e2] at h1; exact Or.inl h1
  · rcases hbc with h2 | ⟨e2, h2⟩
    · rw [← e1] at h2; exact Or.inl h2
    · refine Or.inr ⟨e1.trans e2, ?_⟩
      rcases h1 with m1 | ⟨em1, n1⟩
      · rcases h2 with m2 | ⟨em2, _⟩
        · exact Or.inl (lt_trans m1 m2)
        · rw [em2] at m1; exact Or.inl m1
      · rcases h2 with m2 | ⟨em2, n2⟩
        · rw [← em1] at m2; exact Or.inl m2
        · exact Or.inr ⟨em1.trans em2, le_trans n1 n2⟩⟩

/-- `_sort_candidates` (lines 305-323): Python `sorted` with the
lexicographic key, reproduced by the stable insertion sort. -/
def _sort_candidates (candidates : List Candidate) : List Candidate :=
  candidates.insertionSort candLEP

/-- `extract_candidates_for_run` (lines 326-540), restricted to its
pure content: artifact loading, timing and serialization are external;
the returned pair is (sorted candidate list, trace events). -/
def extract_candidates_for_run (fields : List FieldSpec)
    (routing : List RoutingEntry) (layout : List LayoutDoc) (max_fields : Nat)
    (heurFn : FieldSpec → List LayoutDoc → List Candidate)
    (llmFn : FieldSpec → List DocExcerpt → Except LLMInvalidJSONError (List Candidate)) :
    List Candidate × List TraceEvent :=
  let outcomes := (fields.take max_fields).map fun field =>
    let routed := _get_routed_docs field.key routing layout
    if routed.isEmpty then ([], ([] : List TraceEvent))
    else
      let o := processField heurFn llmFn field routed
      (o.candidates, o.events)
  let all := (outcomes.map Prod.fst).flatten
  (_sort_candidates all,
    (outcomes.map Prod.snd).flatten ++ [⟨"extract_candidates", "ok", none, none⟩])

/-! ## Well-formedness predicates and the spec-side date predicate -/

/-- A candidate satisfying the construction-time invariants of the data
model: non-empty evidence, and every evidence item with non-whitespace
doc_id and quoted_text and page at least 1. -/
def CandidateWellFormed (c : Candidate) : Prop :=
  c.evidence ≠ [] ∧ ∀ ev ∈ c.evidence,
    stripWs ev.doc_id.data ≠ [] ∧ 1 ≤ ev.page ∧ stripWs ev.quoted_text.data ≠ []

/-- `n` occurs contiguously inside `h`. -/
def InfixOf (n h : List Char) : Prop := ∃ s t, h = s ++ n ++ t

/-- Spec-side reading of one evidence text hit for a date `y`-`m`-`d`:
the four separator patterns (padded and unpadded, year-first and
month-first) or the all-three-components month-name heuristic. -/
def dateHitSpec (y m d : List Char) (t : List Char) : Prop :=
  (∃ s1 ∈ seps, ∃ s2 ∈ seps, InfixOf (y ++ s1 :: (m ++ s2 :: d)) t) ∨
  (∃ s1 ∈ seps, ∃ s2 ∈ seps,
    InfixOf (y ++ s1 :: (natLit (digitsToNat m) ++ s2 :: natLit (digitsToNat d))) t) ∨
  (∃ s1 ∈ seps, ∃ s2 ∈ seps, InfixOf (m ++ s1 :: (d ++ s2 :: y)) t) ∨
  (∃ s1 ∈ seps, ∃ s2 ∈ seps,
    InfixOf (natLit (digitsToNat m) ++ s1 :: (natLit (digitsToNat d) ++ s2 :: y)) t) ∨
  (InfixOf y t ∧ InfixOf (d.dropWhile (fun c => c = '0')) t ∧
    ∃ nm ∈ monthNamesFor m, InfixOf nm.data (lowerList t))

/-- Spec-side reading of the date rule of the Evidence Verifier: the
normalized value starts with a YYYY-MM-DD digit group decomposition and
some evidence text contains the date as YYYY-MM-DD (padded or unpadded,
hyphen or slash separators), or as MM-DD-YYYY (padded or unpadded), or
contains the year digits, the unpadded day digits, and a recognized
month name or abbreviation for that month (case-insensitively). -/
def dateSupportSpec (normalized_value : String) (evidence_texts : List String) : Prop :=
  ∃ y m d rest,
    normalized_value.data = y ++ '-' :: (m ++ '-' :: (d ++ rest)) ∧
    y.length = 4 ∧ m.length = 2 ∧ d.length = 2 ∧
    (∀ c ∈ y, c.isDigit = true) ∧ (∀ c ∈ m, c.isDigit = true) ∧
    (∀ c ∈ d, c.isDigit = true) ∧
    ∃ t ∈ evidence_texts, dateHitSpec y m d t.data

/-- Total text length of a list of excerpts. -/
def totalTextLen (es : List DocExcerpt) : Nat :=
  (es.map (fun e => e.text.data.length)).sum

/-! ## Concrete fixtures used by the witness theorems -/

def exDateField : FieldSpec := ⟨"dob", some "Date of Birth", FieldType.date⟩

def exStringField : FieldSpec := ⟨"full_name", some "Name", FieldType.string⟩

def exEvidence : Evidence := ⟨"doc1", 1, "Patient DOB: 1978-10-05"⟩

def exDateCand : Candidate :=
  ⟨"dob", "1978-10-05", "1978-10-05", [exEvidence],
    ExtractionMethod.heuristic, [], [], ⟨1, 0, 0, 0, 0⟩⟩

def exBadCand : Candidate :=
  ⟨"dob", "1999-01-01", "1999-01-01", [exEvidence],
    ExtractionMethod.heuristic, [], [], ⟨0, 0, 0, 0, 0⟩⟩

def exLlmCand : Candidate :=
  ⟨"dob", "1978-10-05", "1978-10-05", [exEvidence],
    ExtractionMethod.llm, [], [], ⟨1, 0, 0, 0, 0⟩⟩

def exDoc : LayoutDoc := ⟨"doc1", [⟨1, "Patient DOB: 1978-10-05"⟩]⟩

def exRouting : List RoutingEntry := [⟨"dob", ["doc1"]⟩]

def exExcerpt : DocExcerpt := ⟨"doc1", 1, "Patient DOB: 1978-10-05"⟩

def exHeurFn : FieldSpec → List LayoutDoc → List Candidate := fun _ _ => [exDateCand]

def exLlmOkFn : FieldSpec → List DocExcerpt → Except LLMInvalidJSONError (List Candidate) :=
  fun _ _ => Except.ok [exLlmCand]

def exLlmErrFn : FieldSpec → List DocExcerpt → Except LLMInvalidJSONError (List Candidate) :=
  fun _ _ => Except.error ⟨"dob", "Invalid JSON: oops"⟩

def exParseFail : Nat → Except String (List Candidate) := fun _ => Except.error "bad"

def exSortInput : List Candidate := [exLlmCand, exDateCand]

def exHeurFn2 : FieldSpec → List LayoutDoc → List Candidate :=
  fun _ _ => [exDateCand, exBadCand]

def exHeurEmpty : FieldSpec → List LayoutDoc → List Candidate := fun _ _ => []

end DocProc

namespace DocProc

/-! ## Theorems: the normalizer (claim C2) -/

theorem lowerChar_idem (c : Char) : lowerChar (lowerChar c) = lowerChar c := by
  rcases hf : upperLowerPairs.find? (fun p => p.1 = c) with _ | p
  · simp [lowerChar, hf]
  · have h2 : lowerChar c = p.2 := by simp [lowerChar, hf]
    rw [h2]
    have hp : p ∈ upperLowerPairs := List.mem_of_find?_eq_some hf
    fin_cases hp <;> decide

theorem mem_collapseWsAux :
    ∀ (l : List Char) (b : Bool) (c : Char),
      c ∈ collapseWsAux b l → c = ' ' ∨ (c ∈ l ∧ isPySpace c = false) := by
  intro l
  induction l with
  | nil => intro b c h; cases b <;> simp [collapseWsAux] at h
  | cons d ds ih =>
    intro b c h
    by_cases hd : isPySpace d = true
    · cases b with
      | true =>
        simp only [collapseWsAux, hd, if_true] at h
        rcases ih true c h with h1 | ⟨h2, h3⟩
        · exact Or.inl h1
        · exact Or.inr ⟨List.mem_cons_of_mem _ h2, h3⟩
      | false =>
        simp only [collapseWsAux, hd, if_true, List.mem_cons] at h
        rcases h with h | h
        · exact Or.inl h
        · rcases ih true c h with h1 | ⟨h2, h3⟩
          · exact Or.inl h1
          · exact Or.inr ⟨List.mem_cons_of_mem _ h2, h3⟩
    · have hd' : isPySpace d = false := by simpa using hd
      cases b <;> simp only [collapseWsAux, hd', if_false, Bool.false_eq_true,
        List.mem_cons] at h <;>
      · rcases h with h | h
        · exact Or.inr ⟨by simp [h], by simpa [h] using hd'⟩
        · rcases ih false c h with h1 | ⟨h2, h3⟩
          · exact Or.inl h1
          · exact Or.inr ⟨List.mem_cons_of_mem _ h2, h3⟩

theorem headOkay_collapseWsAux_true :
    ∀ (l : List Char), HeadOkay (collapseWsAux true l) := by
  intro l
  induction l with
  | nil => intro c h; simp [collapseWsAux] at h
  | cons d ds ih =>
    intro c h
    by_cases hd : isPySpace d = true
    · simp only [collapseWsAux, hd, if_true] at h
      exact ih c h
    · have hd' : isPySpace d = false := by simpa using hd
      simp only [collapseWsAux, hd', Bool.false_eq_true, if_false,
        List.head?_cons, Option.some.injEq] at h
      rw [← h]; exact hd'

theorem noTwoSp_collapseWsAux : ∀ (l : List Char) (b : Bool), NoTwoSp (collapseWsAux b l) := by
  intro l
  induction l with
  | nil => intro b; cases b <;> exact List.chain'_nil
  | cons d ds ih =>
    intro b
    by_cases hd : isPySpace d = true
    · cases b with
      | true => simpa only [collapseWsAux, hd, if_true] using ih true
      | false =>
        simp only [collapseWsAux, hd, if_true]
        refine List.chain'_cons'.mpr ⟨?_, ih true⟩
        intro y hy
        have := headOkay_collapseWsAux_true ds y hy
        intro hcon
        rw [this] at hcon
        exact Bool.false_ne_true hcon.2
    · have hd' : isPySpace d = false := by simpa using hd
      cases b <;>
      · simp only [collapseWsAux, hd', Bool.false_eq_true, if_false]
        refine List.chain'_cons'.mpr ⟨?_, ih false⟩
        intro y _ hcon
        rw [hd'] at hcon
        exact Bool.false_ne_true hcon.1

theorem collapseWsAux_eq_self :
    ∀ (l : List Char), NoTwoSp l → (∀ c ∈ l, isPySpace c = true → c = ' ') →
      (HeadOkay l → collapseWsAux true l = l) ∧ collapseWsAux false l = l := by
  intro l
  induction l with
  | nil => intro _ _; exact ⟨fun _ => rfl, rfl⟩
  | cons d ds ih =>
    intro hchain hsp
    have hpair := List.chain'_cons'.mp hchain
    have htail := ih hpair.2 (fun c hc => hsp c (List.mem_cons_of_mem _ hc))
    by_cases hd : isPySpace d = true
    · have hd' : d = ' ' := hsp d (List.mem_cons_self d ds) hd
      constructor
      · intro hok
        have := hok d (by simp)
        rw [hd] at this
        exact Bool.noConfusion this
      · have hok : HeadOkay ds := by
          intro y hy
          have := hpair.1 y hy
          by_contra hcon
          exact this ⟨hd, by simpa using hcon⟩
        have e1 : collapseWsAux false (d :: ds) = ' ' :: collapseWsAux true ds := by
          simp [collapseWsAux, hd]
        rw [e1, htail.1 hok, hd']
    · have hd' : isPySpace d = false := by simpa using hd
      constructor
      · intro _
        simp only [collapseWsAux, hd', Bool.false_eq_true, if_false]
        rw [htail.2]
      · simp only [collapseWsAux, hd', Bool.false_eq_true, if_false]
        rw [htail.2]

theorem headOkay_dropWhile (l : List Char) : HeadOkay (List.dropWhile isPySpace l) := by
  induction l with
  | nil => intro c h; simp at h
  | cons d ds ih =>
    by_cases hd : isPySpace d = true
    · simpa [List.dropWhile_cons, hd] using ih
    · have hd' : isPySpace d = false := by simpa using hd
      intro c h
      simp only [List.dropWhile_cons, hd', Bool.false_eq_true, if_false,
        List.head?_cons, Option.some.injEq] at h
      rw [← h]; exact hd'

theorem dropWhile_eq_self_of_headOkay {l : List Char} (h : HeadOkay l) :
    List.dropWhile isPySpace l = l := by
  cases l with
  | nil => rfl
  | cons d ds =>
    have := h d rfl
    simp [List.dropWhile_cons, this]

theorem stripWs_eq_self {l : List Char} (h1 : HeadOkay l) (h2 : HeadOkay l.reverse) :
    stripWs l = l := by
  unfold stripWs
  rw [dropWhile_eq_self_of_headOkay h1, dropWhile_eq_self_of_headOkay h2,
    List.reverse_reverse]

theorem noTwoSp_reverse {l : List Char} (h : NoTwoSp l) : NoTwoSp l.reverse := by
  unfold NoTwoSp at h ⊢
  rw [List.chain'_reverse]
  exact h.imp (fun a b hab => fun hcon => hab ⟨hcon.2, hcon.1⟩)

theorem noTwoSp_stripWs {l : List Char} (h : NoTwoSp l) : NoTwoSp (stripWs l) := by
  unfold stripWs
  exact noTwoSp_reverse ((noTwoSp_reverse (h.suffix (List.dropWhile_suffix _))).suffix
    (List.dropWhile_suffix _))

theorem headOkay_reverse_stripWs (l : List Char) : HeadOkay (stripWs l).reverse := by
  unfold stripWs
  rw [List.reverse_reverse]
  exact headOkay_dropWhile _

theorem headOkay_stripWs (l : List Char) : HeadOkay (stripWs l) := by
  unfold stripWs
  set d1 := List.dropWhile isPySpace l with hd1
  obtain ⟨t, ht⟩ := List.dropWhile_suffix (l := d1.reverse) isPySpace
  set d2 := List.dropWhile isPySpace d1.reverse with hd2
  intro c hc
  rcases hrev : d2.reverse with _ | ⟨c', r⟩
  · rw [hrev] at hc; simp at hc
  · rw [hrev] at hc
    simp only [List.head?_cons, Option.some.injEq] at hc
    have hd1eq : d1 = c' :: (r ++ t.reverse) := by
      have : d1 = d2.reverse ++ t.reverse := by
        rw [← List.reverse_append, ht, List.reverse_reverse]
      rw [this, hrev]; simp
    have := headOkay_dropWhile l c' (by rw [← hd1, hd1eq]; rfl)
    rw [← hc]; exact this

theorem mem_stripWs {l : List Char} {c : Char} (hc : c ∈ stripWs l) : c ∈ l := by
  unfold stripWs at hc
  rw [List.mem_reverse] at hc
  have h1 := (List.dropWhile_sublist (l := (List.dropWhile isPySpace l).reverse) isPySpace).mem hc
  rw [List.mem_reverse] at h1
  exact (List.dropWhile_sublist isPySpace).mem h1

theorem map_eq_self_of_mem {l : List Char} {f : Char → Char} (h : ∀ c ∈ l, f c = c) :
    l.map f = l := by
  induction l with
  | nil => rfl
  | cons d ds ih =>
    simp only [List.map_cons, h d (by simp), List.cons.injEq, true_and]
    exact ih (fun c hc => h c (List.mem_cons_of_mem _ hc))

/-- Character-level facts about any output of `normalize_text`: every
character survives the punctuation filter, every whitespace character is
a plain space, and every character is fixed by lower-casing. -/
theorem charProps_normList (l : List Char) :
    ∀ c ∈ normList l,
      keepChar c = true ∧ (isPySpace c = true → c = ' ') ∧ lowerChar c = c := by
  intro c hc
  unfold normList at hc
  have hc1 : c ∈ rmPunct (collapseWs (lowerList l)) := mem_stripWs hc
  unfold rmPunct at hc1
  have hkeep := (List.mem_filter.mp hc1).2
  have hc2 : c ∈ collapseWs (lowerList l) := (List.mem_filter.mp hc1).1
  have h3 := mem_collapseWsAux _ _ _ hc2
  refine ⟨hkeep, ?_, ?_⟩
  · rcases h3 with h | ⟨_, hns⟩
    · intro _; exact h
    · intro hcon; rw [hns] at hcon; exact absurd hcon Bool.false_ne_true
  · rcases h3 with h | ⟨hm, _⟩
    · rw [h]; decide
    · unfold lowerList at hm
      obtain ⟨a, _, ha⟩ := List.mem_map.mp hm
      rw [← ha]; exact lowerChar_idem a

theorem normList_eq_strip_collapse (y : List Char)
    (h1 : ∀ c ∈ y, keepChar c = true) (h3 : ∀ c ∈ y, lowerChar c = c) :
    normList y = stripWs (collapseWs y) := by
  unfold normList
  rw [show lowerList y = y from map_eq_self_of_mem h3]
  have hfix : rmPunct (collapseWs y) = collapseWs y := by
    unfold rmPunct
    refine List.filter_eq_self.mpr (fun c hc => ?_)
    rcases mem_collapseWsAux _ _ _ hc with h | ⟨hm, _⟩
    · rw [h]; decide
    · exact h1 c hm
  rw [hfix]

theorem normList_fixpoint_of_canonical {z : List Char}
    (h1 : ∀ c ∈ z, keepChar c = true)
    (h2 : ∀ c ∈ z, isPySpace c = true → c = ' ')
    (h3 : ∀ c ∈ z, lowerChar c = c)
    (h4 : NoTwoSp z) (h5 : HeadOkay z) (h6 : HeadOkay z.reverse) :
    normList z = z := by
  rw [normList_eq_strip_collapse z h1 h3]
  rw [show collapseWs z = z from (collapseWsAux_eq_self z h4 h2).2]
  exact stripWs_eq_self h5 h6

/-- The second iterate of `normalize_text` is a fixed point: a third
application changes nothing. -/
theorem normList_third_eq_second (l : List Char) :
    normList (normList (normList l)) = normList (normList l) := by
  have hy := charProps_normList l
  have hz := charProps_normList (normList l)
  have hzeq : normList (normList l) = stripWs (collapseWs (normList l)) :=
    normList_eq_strip_collapse (normList l)
      (fun c hc => (hy c hc).1) (fun c hc => (hy c hc).2.2)
  have hNoTwo : NoTwoSp (normList (normList l)) := by
    rw [hzeq]; exact noTwoSp_stripWs (noTwoSp_collapseWsAux _ _)
  have hHead : HeadOkay (normList (normList l)) := by
    rw [hzeq]; exact headOkay_stripWs _
  have hHeadRev : HeadOkay (normList (normList l)).reverse := by
    rw [hzeq]; exact headOkay_reverse_stripWs _
  exact normList_fixpoint_of_canonical
    (fun c hc => (hz c hc).1)
    (fun c hc => (hz c hc).2.1)
    (fun c hc => (hz c hc).2.2)
    hNoTwo hHead hHeadRev

example : normalize_text "HELLO WORLD" = "hello world" := by decide
example : normalize_text "hello   world" = "hello world" := by decide
example : normalize_text "hello, world!" = "hello world" := by decide
example : normalize_text "test-value" = "test-value" := by decide
example : normalize_text "  hello  " = "hello" := by decide
example : normalize_text "" = "" := by decide
example : normalize_text "a . b" = "a  b" := by decide
example : normalize_text "a  b" = "a b" := by decide

/-- C2 (counterexample): `normalize_text` is not idempotent.  On the
input `"a . b"` the first application yields `"a  b"` (removing the dot
creates a double space after whitespace was already collapsed), and a
second application collapses it to `"a b"`. -/
theorem normalize_text_not_idempotent_at_input :
    normalize_text (normalize_text "a . b") ≠ normalize_text "a . b" := by decide

/-- C2 (amended): `normalize_text` is total, and idempotence holds from
the second application on: for every string x,
`normalize_text (normalize_text (normalize_text x)) =
 normalize_text (normalize_text x)`.  (Plain idempotence fails, see the
counterexample.) -/
theorem normalize_text_third_eq_second (s : String) :
    normalize_text (normalize_text (normalize_text s)) =
      normalize_text (normalize_text s) := by
  show String.mk (normList (normList (normList s.data))) =
    String.mk (normList (normList s.data))
  rw [normList_third_eq_second]

end DocProc

namespace DocProc

/-! ## Substring lemmas -/

theorem isPrefixB_iff : ∀ (a b : List Char), isPrefixB a b = true ↔ ∃ t, b = a ++ t := by
  intro a
  induction a with
  | nil => intro b; simp [isPrefixB]
  | cons x xs ih =>
    intro b
    cases b with
    | nil =>
      simp only [isPrefixB, Bool.false_eq_true, false_iff]
      rintro ⟨t, ht⟩
      exact List.cons_ne_nil _ _ ht.symm
    | cons y ys =>
      simp only [isPrefixB, Bool.and_eq_true, decide_eq_true_eq]
      constructor
      · rintro ⟨hxy, hp⟩
        obtain ⟨t, ht⟩ := (ih ys).mp hp
        exact ⟨t, by rw [List.cons_append, ← hxy, ht]⟩
      · rintro ⟨t, ht⟩
        rw [List.cons_append] at ht
        injection ht with h1 h2
        exact ⟨h1.symm, (ih ys).mpr ⟨t, h2⟩⟩

theorem isInfixB_iff : ∀ (n h : List Char), isInfixB n h = true ↔ InfixOf n h := by
  intro n h
  induction h with
  | nil =>
    rw [show isInfixB n [] = n.isEmpty from rfl, List.isEmpty_iff]
    constructor
    · rintro rfl; exact ⟨[], [], rfl⟩
    · rintro ⟨s, t, hst⟩
      have h0 := hst.symm
      rw [List.append_assoc, List.append_eq_nil] at h0
      rw [List.append_eq_nil] at h0
      exact h0.2.1
  | cons c hs ih =>
    rw [show isInfixB n (c :: hs) = (isPrefixB n (c :: hs) || isInfixB n hs) from rfl,
      Bool.or_eq_true, ih, isPrefixB_iff]
    constructor
    · rintro (⟨t, ht⟩ | ⟨s, t, hst⟩)
      · exact ⟨[], t, by simpa using ht⟩
      · exact ⟨c :: s, t, by simp [hst]⟩
    · rintro ⟨s, t, hst⟩
      cases s with
      | nil => exact Or.inl ⟨t, by simpa using hst⟩
      | cons x xs =>
        rw [List.cons_append, List.cons_append] at hst
        injection hst with h1 h2
        exact Or.inr ⟨xs, t, by rw [h2, List.append_assoc]⟩

/-! ## Claim C5: the generator client retry protocol -/

/-- C5: per invocation the generator client makes at most two external
calls; on an empty excerpt list it returns the empty list with no call
at all; and it fails with the invalid-output error — carrying the field
key and the parse-failure message of the second attempt — exactly when
both consecutive parse attempts fail. -/
theorem clientExtractCandidates_retry_protocol
    (field : FieldSpec) (excerpts : List DocExcerpt)
    (parseResults : Nat → Except String (List Candidate)) :
    (clientExtractCandidates field excerpts parseResults).2 ≤ 2 ∧
    (excerpts = [] →
      clientExtractCandidates field excerpts parseResults = (Except.ok [], 0)) ∧
    (∀ e, (clientExtractCandidates field excerpts parseResults).1 = Except.error e ↔
      (excerpts ≠ [] ∧ ∃ m1 m2, parseResults 0 = Except.error m1 ∧
        parseResults 1 = Except.error m2 ∧ e = ⟨field.key, m2⟩)) := by
  unfold clientExtractCandidates
  by_cases hex : excerpts.isEmpty
  · have hnil : excerpts = [] := List.isEmpty_iff.mp hex
    simp [hex, hnil]
  · have hne : excerpts ≠ [] := by simpa [List.isEmpty_iff] using hex
    cases h0 : parseResults 0 with
    | ok cs0 => simp [hex, h0, hne]
    | error m1 =>
      cases h1 : parseResults 1 with
      | ok cs1 => simp [hex, h0, h1, hne]
      | error m2 =>
        refine ⟨by simp [hex, h0, h1], fun hcon => absurd hcon hne, fun e => ?_⟩
        simp only [hex, Bool.false_eq_true, if_false, h0, h1, hne, ne_eq,
          not_false_eq_true, true_and]
        constructor
        · intro hE
          injection hE with hE
          exact ⟨m1, m2, rfl, rfl, hE.symm⟩
        · rintro ⟨m1', m2', hm1, hm2, he⟩
          injection hm2 with hm2
          rw [he, hm2]

/-- Witness for C5 at concrete inputs: empty excerpts short-circuit, and
two failing parse attempts produce the error with the field key and the
second message. -/
theorem clientExtractCandidates_retry_protocol_witness :
    clientExtractCandidates exDateField [] exParseFail = (Except.ok [], 0) ∧
    (clientExtractCandidates exDateField [exExcerpt] exParseFail).1 =
      Except.error ⟨"dob", "bad"⟩ :=
  ⟨(clientExtractCandidates_retry_protocol exDateField [] exParseFail).2.1 rfl,
    ((clientExtractCandidates_retry_protocol exDateField [exExcerpt] exParseFail).2.2
      ⟨"dob", "bad"⟩).mpr
      ⟨by simp, "bad", "bad", rfl, rfl, rfl⟩⟩

end DocProc

namespace DocProc

/-! ## Escalation decision (claims C3 and C4) -/

theorem listMax_lt_iff {T : ℚ} :
    ∀ (l : List ℚ) (x : ℚ), listMax x l < T ↔ x < T ∧ ∀ y ∈ l, y < T := by
  intro l
  induction l with
  | nil => intro x; simp [listMax]
  | cons y ys ih =>
    intro x
    rw [show listMax x (y :: ys) = listMax (max x y) ys from rfl, ih]
    constructor
    · rintro ⟨hxy, hys⟩
      rw [max_lt_iff] at hxy
      refine ⟨hxy.1, fun z hz => ?_⟩
      rcases List.mem_cons.mp hz with rfl | hz
      · exact hxy.2
      · exact hys z hz
    · rintro ⟨hx, hall⟩
      exact ⟨max_lt_iff.mpr ⟨hx, hall y (by simp)⟩,
        fun z hz => hall z (by simp [hz])⟩

/-- The escalation test is equivalent to: no accepted heuristic
candidate, or every accepted candidate has provisional confidence below
the threshold (i.e. the maximum is below the threshold). -/
theorem shouldCallLLM_iff (accepted : List Candidate) :
    shouldCallLLM accepted = true ↔
      (accepted = [] ∨ ∀ c ∈ accepted,
        _compute_provisional_confidence c < AUTOFILL_THRESHOLD) := by
  cases accepted with
  | nil => simp [shouldCallLLM]
  | cons c cs =>
    simp only [shouldCallLLM, decide_eq_true_eq]
    rw [listMax_lt_iff]
    constructor
    · rintro ⟨hc, hcs⟩
      refine Or.inr (fun z hz => ?_)
      rcases List.mem_cons.mp hz with rfl | hz
      · exact hc
      · exact hcs _ (List.mem_map_of_mem _ hz)
    · rintro (h | h)
      · exact absurd h (List.cons_ne_nil _ _)
      · refine ⟨h c (by simp), fun y hy => ?_⟩
        obtain ⟨z, hz, rfl⟩ := List.mem_map.mp hy
        exact h z (by simp [hz])

theorem processField_llm_used (heurFn llmFn field routed) :
    (processField heurFn llmFn field routed).llm_used =
      shouldCallLLM ((heurFn field routed).filter fun c =>
        evidence_supports_value field c) := by
  simp only [processField]
  split
  next hs =>
    split
    · simp [hs]
    · split <;> simp [hs]
  next hs => simp [Bool.not_eq_true] at hs; simp [hs]

theorem processField_not_escalated {heurFn llmFn field routed}
    (hs : shouldCallLLM ((heurFn field routed).filter fun c =>
      evidence_supports_value field c) = false) :
    processField heurFn llmFn field routed =
      ⟨(heurFn field routed).map (checkCandidate field), false, 0,
        [heurEvent field.key]⟩ := by
  simp only [processField]
  rw [if_neg (by simp [hs])]

theorem processField_excerpts_empty {heurFn llmFn field routed}
    (hs : shouldCallLLM ((heurFn field routed).filter fun c =>
      evidence_supports_value field c) = true)
    (hex : build_excerpts_for_field field routed DEFAULT_MAX_TOTAL_CHARS
      DEFAULT_MAX_CHARS_PER_DOC DEFAULT_MAX_PAGES_PER_DOC = []) :
    processField heurFn llmFn field routed =
      ⟨(heurFn field routed).map (checkCandidate field), true, 0,
        [heurEvent field.key, llmOkEvent field.key]⟩ := by
  simp only [processField]
  rw [if_pos hs, if_pos (by simp [hex])]

theorem processField_llm_ok {heurFn llmFn field routed cs}
    (hs : shouldCallLLM ((heurFn field routed).filter fun c =>
      evidence_supports_value field c) = true)
    (hex : build_excerpts_for_field field routed DEFAULT_MAX_TOTAL_CHARS
      DEFAULT_MAX_CHARS_PER_DOC DEFAULT_MAX_PAGES_PER_DOC ≠ [])
    (hok : llmFn field (build_excerpts_for_field field routed
      DEFAULT_MAX_TOTAL_CHARS DEFAULT_MAX_CHARS_PER_DOC
      DEFAULT_MAX_PAGES_PER_DOC) = Except.ok cs) :
    processField heurFn llmFn field routed =
      ⟨(heurFn field routed).map (checkCandidate field) ++
          cs.map (checkCandidate field), true, 1,
        [heurEvent field.key, llmOkEvent field.key]⟩ := by
  simp only [processField]
  rw [if_pos hs, if_neg (by simp [List.isEmpty_iff, hex]), hok]

theorem processField_llm_err {heurFn llmFn field routed e}
    (hs : shouldCallLLM ((heurFn field routed).filter fun c =>
      evidence_supports_value field c) = true)
    (hex : build_excerpts_for_field field routed DEFAULT_MAX_TOTAL_CHARS
      DEFAULT_MAX_CHARS_PER_DOC DEFAULT_MAX_PAGES_PER_DOC ≠ [])
    (herr : llmFn field (build_excerpts_for_field field routed
      DEFAULT_MAX_TOTAL_CHARS DEFAULT_MAX_CHARS_PER_DOC
      DEFAULT_MAX_PAGES_PER_DOC) = Except.error e) :
    processField heurFn llmFn field routed =
      ⟨(heurFn field routed).map (checkCandidate field), true, 1,
        [heurEvent field.key, llmErrEvent field.key e]⟩ := by
  simp only [processField]
  rw [if_pos hs, if_neg (by simp [List.isEmpty_iff, hex]), herr]

/-- C3: for a field with routed documents, the orchestrator escalates to
the generator pass iff there is no accepted heuristic candidate or every
accepted heuristic candidate's provisional confidence `0.45 ×
anchor_match` is strictly below the threshold 0.75 (equivalently, the
maximum is); when it does not escalate, no generator call is made. -/
theorem orchestrator_escalation_iff
    (heurFn : FieldSpec → List LayoutDoc → List Candidate)
    (llmFn : FieldSpec → List DocExcerpt → Except LLMInvalidJSONError (List Candidate))
    (field : FieldSpec) (routed : List LayoutDoc) (_hr : routed ≠ []) :
    ((processField heurFn llmFn field routed).llm_used = true ↔
      (((heurFn field routed).filter fun c => evidence_supports_value field c) = [] ∨
        ∀ c ∈ (heurFn field routed).filter (fun c => evidence_supports_value field c),
          _compute_provisional_confidence c < AUTOFILL_THRESHOLD)) ∧
    ((processField heurFn llmFn field routed).llm_used = false →
      (processField heurFn llmFn field routed).llm_calls = 0) := by
  constructor
  · rw [processField_llm_used]
    exact shouldCallLLM_iff _
  · intro hfalse
    rw [processField_llm_used] at hfalse
    rw [processField_not_escalated hfalse]

/-- Witness for C3 at concrete inputs: one accepted heuristic candidate
with anchor_match 1 (provisional confidence 0.45 < 0.75) escalates. -/
theorem orchestrator_escalation_iff_witness :
    (processField exHeurFn exLlmOkFn exDateField [exDoc]).llm_used = true :=
  ((orchestrator_escalation_iff exHeurFn exLlmOkFn exDateField [exDoc]
    (by decide)).1).mpr (Or.inr (by
      intro c hc
      have hc' : c = exDateCand := by
        have hm := (List.mem_filter.mp hc).1
        simpa [exHeurFn] using hm
      subst hc'
      norm_num [_compute_provisional_confidence, AUTOFILL_THRESHOLD, exDateCand]))

/-- C4: since `anchor_match` is constrained to [0, 1], the provisional
confidence `0.45 × anchor_match` is at most 0.45 and hence below the
0.75 threshold, so for every field with routed documents the
skip-generator branch is unreachable: `should_call_llm` is always true
and the generator pass is always attempted. -/
theorem generator_pass_always_attempted
    (heurFn : FieldSpec → List LayoutDoc → List Candidate)
    (llmFn : FieldSpec → List DocExcerpt → Except LLMInvalidJSONError (List Candidate))
    (field : FieldSpec) (routed : List LayoutDoc) (_hr : routed ≠ [])
    (hscores : ∀ c ∈ heurFn field routed,
      0 ≤ c.scores.anchor_match ∧ c.scores.anchor_match ≤ 1) :
    shouldCallLLM ((heurFn field routed).filter fun c =>
      evidence_supports_value field c) = true ∧
    (processField heurFn llmFn field routed).llm_used = true := by
  have hmain : shouldCallLLM ((heurFn field routed).filter fun c =>
      evidence_supports_value field c) = true := by
    rw [shouldCallLLM_iff]
    refine Or.inr (fun c hc => ?_)
    have hc' := List.mem_of_mem_filter hc
    have h1 := (hscores c hc').2
    unfold _compute_provisional_confidence AUTOFILL_THRESHOLD
    have h2 : (0.45 : ℚ) * c.scores.anchor_match ≤ 0.45 := by linarith
    linarith
  exact ⟨hmain, by rw [processField_llm_used]; exact hmain⟩

/-- Witness for C4 at concrete inputs. -/
theorem generator_pass_always_attempted_witness :
    (processField exHeurFn exLlmErrFn exDateField [exDoc]).llm_used = true :=
  (generator_pass_always_attempted exHeurFn exLlmErrFn exDateField [exDoc]
    (by decide) (by
      intro c hc
      have hc' : c = exDateCand := by simpa [exHeurFn] using hc
      subst hc'
      constructor <;> norm_num [exDateCand])).2

end DocProc

namespace DocProc

/-! ## Claim C1: uniform evidence enforcement -/

theorem checkCandidate_supported {field : FieldSpec} {c : Candidate}
    (h : evidence_supports_value field c = true) : checkCandidate field c = c := by
  simp [checkCandidate, h]

theorem checkCandidate_unsupported {field : FieldSpec} {c : Candidate}
    (h : evidence_supports_value field c = false) :
    checkCandidate field c =
      { c with rejected_reasons := c.rejected_reasons ++ ["unsupported_by_evidence"] } := by
  simp [checkCandidate, h]

theorem checkCandidate_acceptance {field : FieldSpec} {c : Candidate}
    (h0 : c.rejected_reasons = []) :
    ((checkCandidate field c).is_accepted = true ↔
      evidence_supports_value field c = true) ∧
    (evidence_supports_value field c = false →
      (checkCandidate field c).rejected_reasons = ["unsupported_by_evidence"]) := by
  by_cases h : evidence_supports_value field c = true
  · rw [checkCandidate_supported h]
    refine ⟨⟨fun _ => h, fun _ => ?_⟩, fun hcon => ?_⟩
    · unfold Candidate.is_accepted
      rw [h0]; rfl
    · rw [h] at hcon; exact Bool.noConfusion hcon
  · have h' : evidence_supports_value field c = false := by simpa using h
    rw [checkCandidate_unsupported h']
    constructor
    · simp [Candidate.is_accepted, h0, h']
    · intro _; simp [h0]

theorem processField_candidates_shape (heurFn llmFn field routed) :
    ∃ rest, (processField heurFn llmFn field routed).candidates =
      (heurFn field routed).map (checkCandidate field) ++ rest := by
  simp only [processField]
  split
  · split
    · exact ⟨[], by simp⟩
    · split
      · next cs _ => exact ⟨cs.map (checkCandidate field), rfl⟩
      · exact ⟨[], by simp⟩
  · exact ⟨[], by simp⟩

/-- C1: the evidence check applied by the orchestrator is one and the
same function for heuristic and generator candidates and never reads
`from_method`; every candidate entering a field's pass with empty
`rejected_reasons` is kept in the output, is accepted iff
`evidence_supports_value` holds for it, and otherwise carries exactly
the appended reason `"unsupported_by_evidence"`. -/
theorem evidence_check_uniform_acceptance
    (heurFn : FieldSpec → List LayoutDoc → List Candidate)
    (llmFn : FieldSpec → List DocExcerpt → Except LLMInvalidJSONError (List Candidate))
    (field : FieldSpec) (routed : List LayoutDoc) :
    (∀ (f : FieldSpec) (c : Candidate) (m : ExtractionMethod),
      evidence_supports_value f { c with from_method := m } =
        evidence_supports_value f c) ∧
    (∀ c ∈ heurFn field routed, c.rejected_reasons = [] →
      checkCandidate field c ∈ (processField heurFn llmFn field routed).candidates ∧
      ((checkCandidate field c).is_accepted = true ↔
        evidence_supports_value field c = true) ∧
      (evidence_supports_value field c = false →
        (checkCandidate field c).rejected_reasons = ["unsupported_by_evidence"])) ∧
    (∀ cs, llmFn field (build_excerpts_for_field field routed
        DEFAULT_MAX_TOTAL_CHARS DEFAULT_MAX_CHARS_PER_DOC
        DEFAULT_MAX_PAGES_PER_DOC) = Except.ok cs →
      shouldCallLLM ((heurFn field routed).filter fun c =>
        evidence_supports_value field c) = true →
      build_excerpts_for_field field routed DEFAULT_MAX_TOTAL_CHARS
        DEFAULT_MAX_CHARS_PER_DOC DEFAULT_MAX_PAGES_PER_DOC ≠ [] →
      ∀ c ∈ cs, c.rejected_reasons = [] →
        checkCandidate field c ∈ (processField heurFn llmFn field routed).candidates ∧
        ((checkCandidate field c).is_accepted = true ↔
          evidence_supports_value field c = true) ∧
        (evidence_supports_value field c = false →
          (checkCandidate field c).rejected_reasons = ["unsupported_by_evidence"])) := by
  refine ⟨fun f c m => rfl, fun c hc h0 => ⟨?_, checkCandidate_acceptance h0⟩,
    fun cs hok hs hex c hc h0 => ⟨?_, checkCandidate_acceptance h0⟩⟩
  · obtain ⟨rest, hrest⟩ := processField_candidates_shape heurFn llmFn field routed
    rw [hrest]
    exact List.mem_append_left _ (List.mem_map_of_mem _ hc)
  · rw [processField_llm_ok hs hex hok]
    exact List.mem_append_right _ (List.mem_map_of_mem _ hc)

/-- Witness for C1 at concrete inputs: an unsupported candidate gets the
reason appended and the supported one is kept in the output. -/
theorem evidence_check_uniform_acceptance_witness :
    (checkCandidate exDateField exBadCand).rejected_reasons =
      ["unsupported_by_evidence"] ∧
    checkCandidate exDateField exDateCand ∈
      (processField exHeurFn2 exLlmOkFn exDateField [exDoc]).candidates := by
  have h := evidence_check_uniform_acceptance exHeurFn2 exLlmOkFn exDateField [exDoc]
  exact ⟨(h.2.1 exBadCand (by simp [exHeurFn2]) rfl).2.2 (by decide),
    (h.2.1 exDateCand (by simp [exHeurFn2]) rfl).1⟩

/-! ## Claim C7: the deterministic sort law -/

/-- C7: in the sorted output, earlier candidates never have a
lexicographically larger field key; within an equal field no llm-method
candidate precedes a heuristic-method one; and within equal field and
method the normalized value is non-decreasing. -/
theorem sorted_output_order (l : List Candidate)
    (i j : Fin (_sort_candidates l).length) (hij : (i : Nat) < (j : Nat))
    (A B : Candidate) (hA : (_sort_candidates l).get i = A)
    (hB : (_sort_candidates l).get j = B) :
    (¬ B.field < A.field) ∧
    (A.field = B.field →
      ¬(A.from_method = ExtractionMethod.llm ∧
        B.from_method = ExtractionMethod.heuristic)) ∧
    (A.field = B.field → A.from_method = B.from_method →
      A.normalized_value ≤ B.normalized_value) := by
  have hs : List.Sorted candLEP (_sort_candidates l) :=
    List.sorted_insertionSort candLEP l
  have hAB : candLEP A B := by
    rw [← hA, ← hB]
    exact List.pairwise_iff_get.mp hs i j hij
  unfold candLEP at hAB
  refine ⟨?_, ?_, ?_⟩
  · intro hBA
    rcases hAB with h | ⟨he, _⟩
    · exact lt_asymm h hBA
    · rw [he] at hBA; exact lt_irrefl _ hBA
  · rintro he ⟨hAm, hBm⟩
    rcases hAB with h | ⟨_, h⟩
    · rw [he] at h; exact lt_irrefl _ h
    · rcases h with h | ⟨h, _⟩
      · rw [hAm, hBm] at h; exact absurd h (by decide)
      · rw [hAm, hBm] at h; exact absurd h (by decide)
  · intro he hm
    rcases hAB with h | ⟨_, h⟩
    · rw [he] at h; exact absurd h (lt_irrefl _)
    · rcases h with h | ⟨_, h⟩
      · rw [hm] at h; exact absurd h (lt_irrefl _)
      · exact h

theorem exSort_length : (_sort_candidates exSortInput).length = 2 :=
  (List.perm_insertionSort candLEP exSortInput).length_eq.trans rfl

/-- Witness for C7 at a concrete input: sorting a same-field llm/
heuristic pair, the earlier output element never has the larger field. -/
theorem sorted_output_order_witness :
    ¬ ((_sort_candidates exSortInput).get ⟨1, by rw [exSort_length]; omega⟩).field <
        ((_sort_candidates exSortInput).get ⟨0, by rw [exSort_length]; omega⟩).field := by
  have h := sorted_output_order exSortInput ⟨0, by rw [exSort_length]; omega⟩
    ⟨1, by rw [exSort_length]; omega⟩ (by norm_num) _ _ rfl rfl
  exact h.1

end DocProc

namespace DocProc

/-! ## Run-level membership infrastructure (claims C6 and C10) -/

theorem checkCandidate_evidence (field : FieldSpec) (c : Candidate) :
    (checkCandidate field c).evidence = c.evidence := by
  unfold checkCandidate
  split <;> rfl

theorem mem_processField_candidates {heurFn llmFn field routed} {c : Candidate}
    (hc : c ∈ (processField heurFn llmFn field routed).candidates) :
    (∃ c0 ∈ heurFn field routed, c = checkCandidate field c0) ∨
    (∃ cs, llmFn field (build_excerpts_for_field field routed DEFAULT_MAX_TOTAL_CHARS
        DEFAULT_MAX_CHARS_PER_DOC DEFAULT_MAX_PAGES_PER_DOC) = Except.ok cs ∧
      ∃ c0 ∈ cs, c = checkCandidate field c0) := by
  by_cases hs : shouldCallLLM ((heurFn field routed).filter fun c =>
      evidence_supports_value field c) = true
  · by_cases hex : build_excerpts_for_field field routed DEFAULT_MAX_TOTAL_CHARS
        DEFAULT_MAX_CHARS_PER_DOC DEFAULT_MAX_PAGES_PER_DOC = []
    · rw [processField_excerpts_empty hs hex] at hc
      simp only [List.mem_map] at hc
      obtain ⟨c0, h0, hc0⟩ := hc
      exact Or.inl ⟨c0, h0, hc0.symm⟩
    · cases hllm : llmFn field (build_excerpts_for_field field routed
          DEFAULT_MAX_TOTAL_CHARS DEFAULT_MAX_CHARS_PER_DOC
          DEFAULT_MAX_PAGES_PER_DOC) with
      | ok cs =>
        rw [processField_llm_ok hs hex hllm] at hc
        simp only [List.mem_append, List.mem_map] at hc
        rcases hc with ⟨c0, h0, hc0⟩ | ⟨c0, h0, hc0⟩
        · exact Or.inl ⟨c0, h0, hc0.symm⟩
        · exact Or.inr ⟨cs, rfl, c0, h0, hc0.symm⟩
      | error e =>
        rw [processField_llm_err hs hex hllm] at hc
        simp only [List.mem_map] at hc
        obtain ⟨c0, h0, hc0⟩ := hc
        exact Or.inl ⟨c0, h0, hc0.symm⟩
  · have hs' : shouldCallLLM ((heurFn field routed).filter fun c =>
        evidence_supports_value field c) = false := by simpa using hs
    rw [processField_not_escalated hs'] at hc
    simp only [List.mem_map] at hc
    obtain ⟨c0, h0, hc0⟩ := hc
    exact Or.inl ⟨c0, h0, hc0.symm⟩

theorem mem_run_of_field {fields : List FieldSpec} {routing : List RoutingEntry}
    {layout : List LayoutDoc} {mf : Nat} {heurFn llmFn} {field : FieldSpec}
    (hf : field ∈ fields.take mf)
    (hr : _get_routed_docs field.key routing layout ≠ []) {c : Candidate}
    (hc : c ∈ (processField heurFn llmFn field
      (_get_routed_docs field.key routing layout)).candidates) :
    c ∈ (extract_candidates_for_run fields routing layout mf heurFn llmFn).1 := by
  simp only [extract_candidates_for_run]
  refine (List.Perm.mem_iff (List.perm_insertionSort candLEP _)).mpr ?_
  rw [List.mem_flatten]
  refine ⟨(processField heurFn llmFn field
    (_get_routed_docs field.key routing layout)).candidates, ?_, hc⟩
  rw [List.mem_map]
  refine ⟨(if (_get_routed_docs field.key routing layout).isEmpty then ([], [])
    else ((processField heurFn llmFn field
      (_get_routed_docs field.key routing layout)).candidates,
      (processField heurFn llmFn field
        (_get_routed_docs field.key routing layout)).events)), ?_, ?_⟩
  · rw [List.mem_map]
    refine ⟨field, hf, ?_⟩
    rw [if_neg (by simp [List.isEmpty_iff, hr])]
  · rw [if_neg (by simp [List.isEmpty_iff, hr])]

theorem mem_run_events_of_field {fields : List FieldSpec} {routing : List RoutingEntry}
    {layout : List LayoutDoc} {mf : Nat} {heurFn llmFn} {field : FieldSpec}
    (hf : field ∈ fields.take mf)
    (hr : _get_routed_docs field.key routing layout ≠ []) {ev : TraceEvent}
    (he : ev ∈ (processField heurFn llmFn field
      (_get_routed_docs field.key routing layout)).events) :
    ev ∈ (extract_candidates_for_run fields routing layout mf heurFn llmFn).2 := by
  simp only [extract_candidates_for_run]
  refine List.mem_append_left _ ?_
  rw [List.mem_flatten]
  refine ⟨(processField heurFn llmFn field
    (_get_routed_docs field.key routing layout)).events, ?_, he⟩
  rw [List.mem_map]
  refine ⟨(if (_get_routed_docs field.key routing layout).isEmpty then ([], [])
    else ((processField heurFn llmFn field
      (_get_routed_docs field.key routing layout)).candidates,
      (processField heurFn llmFn field
        (_get_routed_docs field.key routing layout)).events)), ?_, ?_⟩
  · rw [List.mem_map]
    refine ⟨field, hf, ?_⟩
    rw [if_neg (by simp [List.isEmpty_iff, hr])]
  · rw [if_neg (by simp [List.isEmpty_iff, hr])]

theorem mem_run_sources {fields : List FieldSpec} {routing : List RoutingEntry}
    {layout : List LayoutDoc} {mf : Nat} {heurFn llmFn} {c : Candidate}
    (hc : c ∈ (extract_candidates_for_run fields routing layout mf heurFn llmFn).1) :
    ∃ field ∈ fields.take mf, _get_routed_docs field.key routing layout ≠ [] ∧
      c ∈ (processField heurFn llmFn field
        (_get_routed_docs field.key routing layout)).candidates := by
  simp only [extract_candidates_for_run] at hc
  have hc' := (List.Perm.mem_iff (List.perm_insertionSort candLEP _)).mp hc
  rw [List.mem_flatten] at hc'
  obtain ⟨lc, hlc, hmem⟩ := hc'
  rw [List.mem_map] at hlc
  obtain ⟨pair, hpair, hfst⟩ := hlc
  rw [List.mem_map] at hpair
  obtain ⟨field, hfield, hg⟩ := hpair
  by_cases hre : (_get_routed_docs field.key routing layout).isEmpty
  · rw [if_pos hre] at hg
    rw [← hg] at hfst
    rw [← hfst] at hmem
    simp at hmem
  · rw [if_neg hre] at hg
    rw [← hg] at hfst
    rw [← hfst] at hmem
    exact ⟨field, hfield, by simpa [List.isEmpty_iff] using hre, hmem⟩

/-! ## Claim C10: construction-time invariants -/

/-- C10: no `Evidence` can be constructed with an empty/whitespace-only
doc_id or quoted_text or a page below 1; no `Candidate` can be
constructed with an empty evidence list; and provided the heuristic
extractor and generator client only produce candidates built under
these invariants, every candidate emitted by a run satisfies them. -/
theorem construction_invariants :
    (∀ (d : String) (p : Int) (q : String) (e : Evidence), mkEvidence d p q = some e →
      stripWs e.doc_id.data ≠ [] ∧ 1 ≤ e.page ∧ stripWs e.quoted_text.data ≠ []) ∧
    (∀ (f rv nv : String) (ev : List Evidence) (fm : ExtractionMethod)
        (va rr : List String) (sc : CandidateScores) (c : Candidate),
      mkCandidate f rv nv ev fm va rr sc = some c → c.evidence ≠ []) ∧
    (∀ (fields : List FieldSpec) (routing : List RoutingEntry)
        (layout : List LayoutDoc) (mf : Nat) (heurFn llmFn),
      (∀ f r, ∀ c ∈ heurFn f r, CandidateWellFormed c) →
      (∀ f ex cs, llmFn f ex = Except.ok cs → ∀ c ∈ cs, CandidateWellFormed c) →
      ∀ c ∈ (extract_candidates_for_run fields routing layout mf heurFn llmFn).1,
        CandidateWellFormed c) := by
  refine ⟨?_, ?_, ?_⟩
  · intro d p q e he
    unfold mkEvidence at he
    split at he
    · exact absurd he (Option.noConfusion)
    · split at he
      · exact absurd he (Option.noConfusion)
      · split at he
        · exact absurd he (Option.noConfusion)
        · next h1 h2 h3 =>
          injection he with he
          subst he
          simp only [Bool.or_eq_true, decide_eq_true_eq, not_or,
            List.isEmpty_iff] at h1 h3
          exact ⟨h1.2, by show 1 ≤ p; omega, h3.2⟩
  · intro f rv nv ev fm va rr sc c hc
    unfold mkCandidate at hc
    split at hc
    · split at hc
      · exact absurd hc (Option.noConfusion)
      · next hev =>
        injection hc with hc
        subst hc
        simpa [List.isEmpty_iff] using hev
    · exact absurd hc (Option.noConfusion)
  · intro fields routing layout mf heurFn llmFn hheur hllm c hc
    obtain ⟨field, hfield, hr, hmem⟩ := mem_run_sources hc
    rcases mem_processField_candidates hmem with ⟨c0, h0, rfl⟩ | ⟨cs, hok, c0, h0, rfl⟩
    · have hwf := hheur field _ c0 h0
      exact ⟨by rw [checkCandidate_evidence]; exact hwf.1,
        by rw [checkCandidate_evidence]; exact hwf.2⟩
    · have hwf := hllm field _ cs hok c0 h0
      exact ⟨by rw [checkCandidate_evidence]; exact hwf.1,
        by rw [checkCandidate_evidence]; exact hwf.2⟩

/-- Witness for C10: a concretely constructed Evidence satisfies the
invariant. -/
theorem construction_invariants_witness :
    stripWs ("doc1" : String).data ≠ [] ∧ 1 ≤ (1 : Int) ∧
      stripWs ("Patient DOB: 1978-10-05" : String).data ≠ [] :=
  construction_invariants.1 "doc1" 1 "Patient DOB: 1978-10-05"
    ⟨"doc1", 1, "Patient DOB: 1978-10-05"⟩ (by decide)

/-! ## Claim C6: generator failures are isolated per field -/

/-- C6: when the generator client fails with the invalid-output error
for a field, the orchestrator records a field-level error trace event,
still emits the field's (checked) heuristic candidates, continues
processing every other field — whose candidates all appear in the run
output — and the run completes with its summary event. -/
theorem generator_failure_isolated
    (fields : List FieldSpec) (routing : List RoutingEntry) (layout : List LayoutDoc)
    (max_fields : Nat)
    (heurFn : FieldSpec → List LayoutDoc → List Candidate)
    (llmFn : FieldSpec → List DocExcerpt → Except LLMInvalidJSONError (List Candidate))
    (field : FieldSpec) (hf : field ∈ fields.take max_fields)
    (hr : _get_routed_docs field.key routing layout ≠ [])
    (hs : shouldCallLLM ((heurFn field (_get_routed_docs field.key routing layout)).filter
      fun c => evidence_supports_value field c) = true)
    (hex : build_excerpts_for_field field (_get_routed_docs field.key routing layout)
      DEFAULT_MAX_TOTAL_CHARS DEFAULT_MAX_CHARS_PER_DOC DEFAULT_MAX_PAGES_PER_DOC ≠ [])
    (e : LLMInvalidJSONError)
    (herr : llmFn field (build_excerpts_for_field field
      (_get_routed_docs field.key routing layout) DEFAULT_MAX_TOTAL_CHARS
      DEFAULT_MAX_CHARS_PER_DOC DEFAULT_MAX_PAGES_PER_DOC) = Except.error e) :
    llmErrEvent field.key e ∈
      (extract_candidates_for_run fields routing layout max_fields heurFn llmFn).2 ∧
    (∀ c ∈ heurFn field (_get_routed_docs field.key routing layout),
      checkCandidate field c ∈
        (extract_candidates_for_run fields routing layout max_fields heurFn llmFn).1) ∧
    (∀ f2 ∈ fields.take max_fields, _get_routed_docs f2.key routing layout ≠ [] →
      ∀ c ∈ (processField heurFn llmFn f2 (_get_routed_docs f2.key routing layout)).candidates,
        c ∈ (extract_candidates_for_run fields routing layout max_fields heurFn llmFn).1) ∧
    (⟨"extract_candidates", "ok", none, none⟩ : TraceEvent) ∈
      (extract_candidates_for_run fields routing layout max_fields heurFn llmFn).2 := by
  refine ⟨?_, ?_, ?_, ?_⟩
  · refine mem_run_events_of_field hf hr ?_
    rw [processField_llm_err hs hex herr]
    simp
  · intro c hc
    refine mem_run_of_field hf hr ?_
    rw [processField_llm_err hs hex herr]
    simpa using List.mem_map_of_mem (checkCandidate field) hc
  · intro f2 hf2 hr2 c hc
    exact mem_run_of_field hf2 hr2 hc
  · simp only [extract_candidates_for_run]
    exact List.mem_append_right _ (by simp)

/-- Witness for C6 at concrete inputs: the generator fails for the only
field; the error event is recorded in the run's trace. -/
theorem generator_failure_isolated_witness :
    llmErrEvent "dob" ⟨"dob", "Invalid JSON: oops"⟩ ∈
      (extract_candidates_for_run [exDateField] exRouting [exDoc] 7
        exHeurEmpty exLlmErrFn).2 :=
  (generator_failure_isolated [exDateField] exRouting [exDoc] 7 exHeurEmpty
    exLlmErrFn exDateField (by simp) (by decide) rfl (by decide)
    ⟨"dob", "Invalid JSON: oops"⟩ rfl).1

end DocProc

namespace DocProc

/-! ## Claim C9: the date rule of the evidence verifier -/

theorem exists_len4 {y : List Char} (h : y.length = 4) :
    ∃ a b c d, y = [a, b, c, d] := by
  rcases y with _ | ⟨a, y⟩
  · exfalso; simp only [List.length_nil] at h; omega
  rcases y with _ | ⟨b, y⟩
  · exfalso; simp only [List.length_cons, List.length_nil] at h; omega
  rcases y with _ | ⟨c, y⟩
  · exfalso; simp only [List.length_cons, List.length_nil] at h; omega
  rcases y with _ | ⟨d, y⟩
  · exfalso; simp only [List.length_cons, List.length_nil] at h; omega
  rcases y with _ | ⟨e, y⟩
  · exact ⟨a, b, c, d, rfl⟩
  · exfalso; simp only [List.length_cons] at h; omega

theorem parseYmd_eq_some {l y m d : List Char} :
    parseYmd l = some (y, m, d) ↔
      ∃ rest, l = y ++ '-' :: (m ++ '-' :: (d ++ rest)) ∧
        y.length = 4 ∧ m.length = 2 ∧ d.length = 2 ∧
        (∀ c ∈ y, c.isDigit = true) ∧ (∀ c ∈ m, c.isDigit = true) ∧
        (∀ c ∈ d, c.isDigit = true) := by
  constructor
  · intro h
    unfold parseYmd at h
    split at h
    · next y1 y2 y3 y4 s1 m1 m2 s2 d1 d2 rest =>
      split at h
      · next hcond =>
        injection h with h
        simp only [Prod.mk.injEq] at h
        obtain ⟨hy, hm, hd⟩ := h
        subst hy; subst hm; subst hd
        simp only [Bool.and_eq_true, decide_eq_true_eq] at hcond
        obtain ⟨⟨⟨⟨⟨⟨⟨⟨⟨h1, h2⟩, h3⟩, h4⟩, hs1⟩, h5⟩, h6⟩, hs2⟩, h7⟩, h8⟩ := hcond
        refine ⟨rest, ?_, rfl, rfl, rfl, ?_, ?_, ?_⟩
        · simp [hs1, hs2]
        · intro c hc
          simp only [List.mem_cons, List.not_mem_nil, or_false] at hc
          rcases hc with rfl | rfl | rfl | rfl <;> assumption
        · intro c hc
          simp only [List.mem_cons, List.not_mem_nil, or_false] at hc
          rcases hc with rfl | rfl <;> assumption
        · intro c hc
          simp only [List.mem_cons, List.not_mem_nil, or_false] at hc
          rcases hc with rfl | rfl <;> assumption
      · exact absurd h (Option.noConfusion)
    · exact absurd h (Option.noConfusion)
  · rintro ⟨rest, hl, h4, h2m, h2d, hdy, hdm, hdd⟩
    obtain ⟨a, b, c, d0, rfl⟩ := exists_len4 h4
    obtain ⟨m1, m2, rfl⟩ := List.length_eq_two.mp h2m
    obtain ⟨d1, d2, rfl⟩ := List.length_eq_two.mp h2d
    subst hl
    have ha := hdy a (by simp)
    have hb := hdy b (by simp)
    have hc := hdy c (by simp)
    have hd0 := hdy d0 (by simp)
    have hm1 := hdm m1 (by simp)
    have hm2 := hdm m2 (by simp)
    have hd1 := hdd d1 (by simp)
    have hd2 := hdd d2 (by simp)
    simp [parseYmd, ha, hb, hc, hd0, hm1, hm2, hd1, hd2]

theorem supportsDateOne_iff (y m d ev : List Char) :
    supportsDateOne y m d ev = true ↔ dateHitSpec y m d ev := by
  unfold supportsDateOne dateHitSpec sepJoinHit
  simp only [Bool.or_eq_true, Bool.and_eq_true, List.any_eq_true, isInfixB_iff,
    or_assoc, and_assoc]

/-- C9: `_evidence_supports_date` returns true iff the normalized value
parses as YYYY-MM-DD (a prefix of four digit chars, hyphen, two digits,
hyphen, two digits) and some evidence text contains that date under one
of the padded or unpadded separator patterns (year-first or
month-first, hyphen or slash) or contains the year digits, the unpadded
day digits, and a recognized month name or abbreviation for that month
case-insensitively. -/
theorem date_rule_refinement (normalized_value : String)
    (evidence_texts : List String) :
    _evidence_supports_date normalized_value evidence_texts = true ↔
      dateSupportSpec normalized_value evidence_texts := by
  unfold _evidence_supports_date
  cases hp : parseYmd normalized_value.data with
  | none =>
    constructor
    · intro h; simp at h
    · rintro ⟨y, m, d, rest, hl, h4, h2m, h2d, hdy, hdm, hdd, -⟩
      have hsome := parseYmd_eq_some.mpr ⟨rest, hl, h4, h2m, h2d, hdy, hdm, hdd⟩
      rw [hp] at hsome
      exact absurd hsome (Option.noConfusion)
  | some ymd =>
    obtain ⟨y, m, d⟩ := ymd
    simp only [List.any_eq_true]
    constructor
    · rintro ⟨t, ht, hhit⟩
      obtain ⟨rest, hl, h4, h2m, h2d, hdy, hdm, hdd⟩ := parseYmd_eq_some.mp hp
      exact ⟨y, m, d, rest, hl, h4, h2m, h2d, hdy, hdm, hdd, t, ht,
        (supportsDateOne_iff y m d t.data).mp hhit⟩
    · rintro ⟨y', m', d', rest', hl', h4', h2m', h2d', hdy', hdm', hdd', t, ht, hhit⟩
      have hp' := parseYmd_eq_some.mpr ⟨rest', hl', h4', h2m', h2d', hdy', hdm', hdd'⟩
      rw [hp] at hp'
      injection hp' with hp'
      simp only [Prod.mk.injEq] at hp'
      obtain ⟨hy, hm, hd⟩ := hp'
      subst hy; subst hm; subst hd
      exact ⟨t, ht, (supportsDateOne_iff y m d t.data).mpr hhit⟩

/-- Witness for C9 at a concrete input: the code-level verifier accepts
"1978-10-05" against evidence containing it, hence the spec-side
predicate holds there. -/
theorem date_rule_refinement_witness :
    dateSupportSpec "1978-10-05" ["Patient DOB: 1978-10-05"] :=
  (date_rule_refinement "1978-10-05" ["Patient DOB: 1978-10-05"]).mp (by decide)

end DocProc

namespace DocProc

/-! ## Claim C8: the excerpt builder -/

theorem totalTextLen_nil : totalTextLen [] = 0 := rfl

theorem totalTextLen_cons (e : DocExcerpt) (es : List DocExcerpt) :
    totalTextLen (e :: es) = e.text.data.length + totalTextLen es := by
  simp [totalTextLen]

theorem totalTextLen_append (a b : List DocExcerpt) :
    totalTextLen (a ++ b) = totalTextLen a + totalTextLen b := by
  simp [totalTextLen]

theorem mk_ne_empty {l : List Char} (h : l ≠ []) : String.mk l ≠ "" := by
  intro he
  apply h
  have hd := congrArg String.data he
  exact hd

theorem buildDocLoop_spec (docId : String) (maxPerDoc maxTotal : Nat) :
    ∀ (pages : List LayoutPageText) (docUsed totalUsed : Nat),
      (buildDocLoop docId maxPerDoc maxTotal pages docUsed totalUsed).2 =
        totalUsed +
          totalTextLen (buildDocLoop docId maxPerDoc maxTotal pages docUsed totalUsed).1 ∧
      totalTextLen (buildDocLoop docId maxPerDoc maxTotal pages docUsed totalUsed).1 ≤
        maxTotal - totalUsed ∧
      totalTextLen (buildDocLoop docId maxPerDoc maxTotal pages docUsed totalUsed).1 ≤
        maxPerDoc - docUsed ∧
      (buildDocLoop docId maxPerDoc maxTotal pages docUsed totalUsed).1.length ≤
        pages.length ∧
      (∀ e ∈ (buildDocLoop docId maxPerDoc maxTotal pages docUsed totalUsed).1,
        e.doc_id = docId ∧ e.text ≠ "" ∧ ∃ p ∈ pages, e.page = p.page) ∧
      ((buildDocLoop docId maxPerDoc maxTotal pages docUsed totalUsed).1.map
        DocExcerpt.page).Sublist (pages.map LayoutPageText.page) := by
  intro pages
  induction pages with
  | nil =>
    intro docUsed totalUsed
    refine ⟨by simp [buildDocLoop, totalTextLen_nil], ?_, ?_, ?_, ?_, ?_⟩ <;>
      simp [buildDocLoop, totalTextLen_nil]
  | cons p rest ih =>
    intro docUsed totalUsed
    by_cases h1 : maxTotal ≤ totalUsed
    · rw [show buildDocLoop docId maxPerDoc maxTotal (p :: rest) docUsed totalUsed =
        ([], totalUsed) from by simp [buildDocLoop, h1]]
      refine ⟨by simp [totalTextLen_nil], ?_, ?_, ?_, ?_, ?_⟩ <;> simp [totalTextLen_nil]
    · by_cases h2 : maxPerDoc ≤ docUsed
      · rw [show buildDocLoop docId maxPerDoc maxTotal (p :: rest) docUsed totalUsed =
          ([], totalUsed) from by simp [buildDocLoop, h1, h2]]
        refine ⟨by simp [totalTextLen_nil], ?_, ?_, ?_, ?_, ?_⟩ <;> simp [totalTextLen_nil]
      · by_cases h3 : (p.full_text.data.take
            (min (maxPerDoc - docUsed) (maxTotal - totalUsed))).isEmpty
        · rw [show buildDocLoop docId maxPerDoc maxTotal (p :: rest) docUsed totalUsed =
            buildDocLoop docId maxPerDoc maxTotal rest docUsed totalUsed from by
              simp only [buildDocLoop, if_neg h1, if_neg h2]; rw [if_pos h3]]
          obtain ⟨i1, i2, i3, i4, i5, i6⟩ := ih docUsed totalUsed
          refine ⟨i1, i2, i3, le_trans i4 (by simp), ?_, ?_⟩
          · intro e he
            obtain ⟨ha, hb, q, hq, hpq⟩ := i5 e he
            exact ⟨ha, hb, q, List.mem_cons_of_mem _ hq, hpq⟩
          · exact i6.trans (List.sublist_cons_self _ _)
        · set tl := p.full_text.data.take
            (min (maxPerDoc - docUsed) (maxTotal - totalUsed)) with htl
          have hred : buildDocLoop docId maxPerDoc maxTotal (p :: rest) docUsed totalUsed =
              (⟨docId, p.page, String.mk tl⟩ ::
                (buildDocLoop docId maxPerDoc maxTotal rest
                  (docUsed + tl.length) (totalUsed + tl.length)).1,
                (buildDocLoop docId maxPerDoc maxTotal rest
                  (docUsed + tl.length) (totalUsed + tl.length)).2) := by
            simp only [buildDocLoop, if_neg h1, if_neg h2]
            rw [if_neg h3]
          obtain ⟨i1, i2, i3, i4, i5, i6⟩ := ih (docUsed + tl.length) (totalUsed + tl.length)
          have hlen : tl.length ≤ min (maxPerDoc - docUsed) (maxTotal - totalUsed) := by
            rw [htl, List.length_take]
            exact min_le_left _ _
          have hlen1 : tl.length ≤ maxPerDoc - docUsed :=
            le_trans hlen (min_le_left _ _)
          have hlen2 : tl.length ≤ maxTotal - totalUsed :=
            le_trans hlen (min_le_right _ _)
          rw [hred]
          refine ⟨?_, ?_, ?_, ?_, ?_, ?_⟩
          · rw [totalTextLen_cons]
            show _ = totalUsed + (tl.length + _)
            omega
          · rw [totalTextLen_cons]
            show tl.length + totalTextLen (buildDocLoop docId maxPerDoc maxTotal rest
              (docUsed + tl.length) (totalUsed + tl.length)).1 ≤ maxTotal - totalUsed
            omega
          · rw [totalTextLen_cons]
            show tl.length + totalTextLen (buildDocLoop docId maxPerDoc maxTotal rest
              (docUsed + tl.length) (totalUsed + tl.length)).1 ≤ maxPerDoc - docUsed
            omega
          · simpa using i4
          · intro e he
            rcases List.mem_cons.mp he with rfl | he'
            · refine ⟨rfl, ?_, p, by simp, rfl⟩
              exact mk_ne_empty (by simpa [List.isEmpty_iff] using h3)
            · obtain ⟨ha, hb, q, hq, hpq⟩ := i5 e he'
              exact ⟨ha, hb, q, List.mem_cons_of_mem _ hq, hpq⟩
          · simpa using List.Sublist.cons₂ p.page i6

end DocProc

namespace DocProc

theorem sortedPages_perm (doc : LayoutDoc) : (sortedPages doc).Perm doc.pages :=
  List.perm_insertionSort _ _

theorem sortedPages_sorted (doc : LayoutDoc) : List.Sorted pageLEP (sortedPages doc) :=
  List.sorted_insertionSort _ _

theorem selectPages_cases (kws : List String) (doc : LayoutDoc) (mp : Nat) :
    (selectPages kws doc mp = ((sortedPages doc).filter
      (fun p => _page_contains_keyword p.full_text kws)).take mp) ∨
    (((sortedPages doc).filter (fun p => _page_contains_keyword p.full_text kws)) = [] ∧
      ∃ q0 qr, sortedPages doc = q0 :: qr ∧ selectPages kws doc mp = [q0].take mp) := by
  simp only [selectPages]
  rcases hflt : (sortedPages doc).filter (fun p => _page_contains_keyword p.full_text kws)
    with _ | ⟨f0, fr⟩
  · rcases hsort : sortedPages doc with _ | ⟨q0, qr⟩
    · left; rfl
    · right
      rw [hsort] at hflt
      exact ⟨hflt, q0, qr, rfl, by rw [hflt]⟩
  · left
    rw [hflt]

theorem selectPages_length_le (kws : List String) (doc : LayoutDoc) (mp : Nat) :
    (selectPages kws doc mp).length ≤ mp := by
  rcases selectPages_cases kws doc mp with h | ⟨-, q0, qr, -, h⟩ <;> rw [h] <;>
    exact List.length_take_le _ _

theorem selectPages_mem_info {kws : List String} {doc : LayoutDoc} {mp : Nat}
    {p : LayoutPageText} (hp : p ∈ selectPages kws doc mp) :
    p ∈ doc.pages ∧ (_page_contains_keyword p.full_text kws = true ∨
      ∀ q ∈ doc.pages, _page_contains_keyword q.full_text kws = false) := by
  rcases selectPages_cases kws doc mp with h | ⟨hflt, q0, qr, hsort, h⟩
  · rw [h] at hp
    have hp' := (List.take_sublist _ _).mem hp
    have hmem := List.mem_filter.mp hp'
    exact ⟨((sortedPages_perm doc).mem_iff).mp hmem.1, Or.inl hmem.2⟩
  · rw [h] at hp
    have hp0 : p = q0 := by simpa using (List.take_sublist _ _).mem hp
    subst hp0
    constructor
    · exact ((sortedPages_perm doc).mem_iff).mp (by rw [hsort]; simp)
    · right
      intro q hq
      have hq' : q ∈ sortedPages doc := ((sortedPages_perm doc).mem_iff).mpr hq
      have := List.filter_eq_nil_iff.mp hflt q hq'
      simpa using this

theorem selectPages_pages_pairwise (kws : List String) (doc : LayoutDoc) (mp : Nat) :
    ((selectPages kws doc mp).map LayoutPageText.page).Pairwise (fun a b => a ≤ b) := by
  rcases selectPages_cases kws doc mp with h | ⟨-, q0, qr, -, h⟩
  · rw [h]
    have hs : ((sortedPages doc).map LayoutPageText.page).Pairwise (fun a b => a ≤ b) := by
      rw [List.pairwise_map]
      exact sortedPages_sorted doc
    exact List.Pairwise.sublist
      (List.Sublist.map _ ((List.take_sublist _ _).trans (List.filter_sublist _))) hs
  · rw [h]
    exact List.Pairwise.sublist (List.Sublist.map _ (List.take_sublist _ _)) (by simp)

theorem filter_nil_of_none {kws : List String} {doc : LayoutDoc}
    (hnone : ∀ q ∈ doc.pages, _page_contains_keyword q.full_text kws = false) :
    (sortedPages doc).filter (fun p => _page_contains_keyword p.full_text kws) = [] := by
  rw [List.filter_eq_nil_iff]
  intro a ha
  rw [hnone a (((sortedPages_perm doc).mem_iff).mp ha)]
  simp

theorem selectPages_fallback_len {kws : List String} {doc : LayoutDoc} {mp : Nat}
    (hnone : ∀ q ∈ doc.pages, _page_contains_keyword q.full_text kws = false) :
    (selectPages kws doc mp).length ≤ 1 := by
  rcases selectPages_cases kws doc mp with h | ⟨-, q0, qr, -, h⟩
  · rw [h, filter_nil_of_none hnone]
    simp
  · rw [h]
    exact le_trans (List.take_sublist mp [q0]).length_le (by simp)

theorem sortedPages_head_min {doc : LayoutDoc} {q0 : LayoutPageText}
    {qr : List LayoutPageText} (h : sortedPages doc = q0 :: qr) :
    ∀ q ∈ doc.pages, q0.page ≤ q.page := by
  intro q hq
  have hq' : q ∈ sortedPages doc := ((sortedPages_perm doc).mem_iff).mpr hq
  rw [h] at hq'
  rcases List.mem_cons.mp hq' with rfl | hq''
  · exact le_refl _
  · have hs := sortedPages_sorted doc
    rw [h] at hs
    exact List.rel_of_sorted_cons hs q hq''

theorem selectPages_fallback_min {kws : List String} {doc : LayoutDoc} {mp : Nat}
    (hnone : ∀ q ∈ doc.pages, _page_contains_keyword q.full_text kws = false)
    {p : LayoutPageText} (hp : p ∈ selectPages kws doc mp) :
    ∀ q ∈ doc.pages, p.page ≤ q.page := by
  rcases selectPages_cases kws doc mp with h | ⟨-, q0, qr, hsort, h⟩
  · rw [h, filter_nil_of_none hnone] at hp
    simp at hp
  · rw [h] at hp
    have hp0 : p = q0 := by simpa using (List.take_sublist _ _).mem hp
    subst hp0
    exact sortedPages_head_min hsort

theorem buildChunks_flatten_exhausted (kws : List String) (mt md mp : Nat) :
    ∀ (docs : List LayoutDoc) (tot : Nat), mt ≤ tot →
      (buildChunks kws mt md mp docs tot).flatten = [] := by
  intro docs
  induction docs with
  | nil => intro tot _; rfl
  | cons doc rest ih =>
    intro tot h
    simp only [buildChunks, if_pos h, List.flatten_cons, List.nil_append]
    exact ih tot h

theorem buildLoop_eq_flatten (kws : List String) (mt md mp : Nat) :
    ∀ (docs : List LayoutDoc) (tot : Nat),
      buildLoop kws mt md mp docs tot = (buildChunks kws mt md mp docs tot).flatten := by
  intro docs
  induction docs with
  | nil => intro tot; rfl
  | cons doc rest ih =>
    intro tot
    by_cases h : mt ≤ tot
    · simp only [buildLoop, buildChunks, if_pos h, List.flatten_cons, List.nil_append]
      exact (buildChunks_flatten_exhausted kws mt md mp rest tot h).symm
    · simp only [buildLoop, buildChunks, if_neg h, List.flatten_cons]
      rw [ih]

theorem buildLoop_total_le (kws : List String) (mt md mp : Nat) :
    ∀ (docs : List LayoutDoc) (tot : Nat),
      totalTextLen (buildLoop kws mt md mp docs tot) ≤ mt - tot := by
  intro docs
  induction docs with
  | nil => intro tot; simp [buildLoop, totalTextLen_nil]
  | cons doc rest ih =>
    intro tot
    by_cases h : mt ≤ tot
    · simp [buildLoop, if_pos h, totalTextLen_nil]
    · simp only [buildLoop, if_neg h]
      rw [totalTextLen_append]
      obtain ⟨s1, s2, -, -, -, -⟩ :=
        buildDocLoop_spec doc.doc_id md mt (selectPages kws doc mp) 0 tot
      have h3 := ih (buildDocLoop doc.doc_id md mt (selectPages kws doc mp) 0 tot).2
      rw [s1] at h3 ⊢
      omega

theorem buildChunks_spec (kws : List String) (mt md mp : Nat) :
    ∀ (docs : List LayoutDoc) (tot : Nat),
      List.Forall₂ (fun (chunk : List DocExcerpt) (doc : LayoutDoc) =>
        totalTextLen chunk ≤ md ∧
        chunk.length ≤ (selectPages kws doc mp).length ∧
        (∀ e ∈ chunk, e.doc_id = doc.doc_id ∧ e.text ≠ "" ∧
          ∃ p ∈ selectPages kws doc mp, e.page = p.page) ∧
        (chunk.map DocExcerpt.page).Pairwise (fun a b => a ≤ b))
        (buildChunks kws mt md mp docs tot) docs := by
  intro docs
  induction docs with
  | nil => intro tot; exact List.Forall₂.nil
  | cons doc rest ih =>
    intro tot
    by_cases h : mt ≤ tot
    · rw [show buildChunks kws mt md mp (doc :: rest) tot =
        [] :: buildChunks kws mt md mp rest tot from by simp [buildChunks, h]]
      exact List.Forall₂.cons
        ⟨by simp [totalTextLen_nil], by simp, by simp, by simp⟩ (ih tot)
    · rw [show buildChunks kws mt md mp (doc :: rest) tot =
        (buildDocLoop doc.doc_id md mt (selectPages kws doc mp) 0 tot).1 ::
          buildChunks kws mt md mp rest
            (buildDocLoop doc.doc_id md mt (selectPages kws doc mp) 0 tot).2 from by
        simp [buildChunks, h]]
      obtain ⟨s1, s2, s3, s4, s5, s6⟩ :=
        buildDocLoop_spec doc.doc_id md mt (selectPages kws doc mp) 0 tot
      exact List.Forall₂.cons ⟨by simpa using s3, s4, s5,
        List.Pairwise.sublist s6 (selectPages_pages_pairwise kws doc mp)⟩ (ih _)

/-- C8: the excerpt builder respects the total character budget; its
output decomposes into one chunk per routed document, in routed order,
where each chunk respects the per-document character budget and the
per-document page cap, contains no empty text, only excerpts from the
owning document's pages — each either containing a field keyword or
taken when no page of the document contains one — and in the fallback
case uses at most one excerpt, from the lowest-numbered page; within a
chunk, page numbers are ascending. -/
theorem excerpt_builder_caps (field : FieldSpec) (routed_docs : List LayoutDoc)
    (max_total_chars max_chars_per_doc max_pages_per_doc : Nat) :
    totalTextLen (build_excerpts_for_field field routed_docs max_total_chars
      max_chars_per_doc max_pages_per_doc) ≤ max_total_chars ∧
    ∃ chunks : List (List DocExcerpt),
      build_excerpts_for_field field routed_docs max_total_chars max_chars_per_doc
        max_pages_per_doc = chunks.flatten ∧
      List.Forall₂ (fun (chunk : List DocExcerpt) (doc : LayoutDoc) =>
        totalTextLen chunk ≤ max_chars_per_doc ∧
        chunk.length ≤ max_pages_per_doc ∧
        (∀ e ∈ chunk,
          e.doc_id = doc.doc_id ∧
          e.text ≠ "" ∧
          ∃ p ∈ doc.pages, e.page = p.page ∧
            (_page_contains_keyword p.full_text (_get_field_keywords field) = true ∨
              ∀ q ∈ doc.pages,
                _page_contains_keyword q.full_text (_get_field_keywords field) = false)) ∧
        ((∀ q ∈ doc.pages,
            _page_contains_keyword q.full_text (_get_field_keywords field) = false) →
          chunk.length ≤ 1 ∧ ∀ e ∈ chunk, ∀ q ∈ doc.pages, e.page ≤ q.page) ∧
        (chunk.map DocExcerpt.page).Pairwise (fun a b => a ≤ b))
        chunks routed_docs := by
  constructor
  · have h := buildLoop_total_le (_get_field_keywords field) max_total_chars
      max_chars_per_doc max_pages_per_doc routed_docs 0
    simpa [build_excerpts_for_field] using h
  · refine ⟨buildChunks (_get_field_keywords field) max_total_chars max_chars_per_doc
      max_pages_per_doc routed_docs 0,
      buildLoop_eq_flatten _ _ _ _ routed_docs 0, ?_⟩
    refine (buildChunks_spec (_get_field_keywords field) max_total_chars
      max_chars_per_doc max_pages_per_doc routed_docs 0).imp ?_
    intro chunk doc hP
    obtain ⟨h1, h2, h3, h4⟩ := hP
    refine ⟨h1, le_trans h2 (selectPages_length_le _ _ _), ?_, ?_, h4⟩
    · intro e he
      obtain ⟨hid, hne, p, hp, hpage⟩ := h3 e he
      obtain ⟨hmem, hkw⟩ := selectPages_mem_info hp
      exact ⟨hid, hne, p, hmem, hpage, hkw⟩
    · intro hnone
      refine ⟨le_trans h2 (selectPages_fallback_len hnone), ?_⟩
      intro e he q hq
      obtain ⟨-, -, p, hp, hpage⟩ := h3 e he
      rw [hpage]
      exact selectPages_fallback_min hnone hp q hq

/-- Witness for C8 at a concrete input: the default budgets are
respected. -/
theorem excerpt_builder_caps_witness :
    totalTextLen (build_excerpts_for_field exDateField [exDoc] 8000 4000 3) ≤ 8000 :=
  (excerpt_builder_caps exDateField [exDoc] 8000 4000 3).1

end DocProc
